import Mathlib

/-!
# Verification of the rhythmic indispensability engine

This file is a shallow embedding, in Lean 4, of the metric-indispensability
engine of `scamp_extensions` (`rhythm/indispensibility.py`): the
`MeterArithmeticGroup` parser, the `MetricLayer` structure with its algebra
(`break_up_large_numbers`, `_remove_redundant_nesting`, `__mul__`, `__rmul__`),
the nested beat-group construction, depth normalization, the
`flatten_beat_groups` priority algorithm, and the final indispensability array
builder, together with proofs of the specification's claims about them.

Conventions used throughout:
* Python's nested lists of ints are embedded as the mutual inductives
  `NE` (an element: an int or a list) and `NEL` (a list of elements).
  Custom list types are used instead of `List NE` so that every function is
  structurally recursive and therefore reducible by the kernel (`decide`).
* Python exceptions (failed asserts, `ValueError`, `IndexError`,
  `ZeroDivisionError`) are embedded as `Option.none`.
* In-place mutation in the source is embedded by value passing; every Python
  loop is embedded as a structurally recursive function, with an explicit
  fuel argument when the loop is not structural (the fuel chosen is provably
  sufficient wherever a claim depends on it).
-/

open scoped List

mutual
/-- An element of a nested Python list of ints: either an int or a list. -/
inductive NE where
  | int : ℕ → NE
  | list : NEL → NE
  deriving DecidableEq

/-- A nested Python list of ints (`NEL` = list of `NE` elements). -/
inductive NEL where
  | nil : NEL
  | cons : NE → NEL → NEL
  deriving DecidableEq
end

mutual
/-- Leaves (the ints) of a nested list element, in left-to-right order. -/
def NE.leaves : NE → List ℕ
  | .int n => [n]
  | .list xs => NEL.leaves xs

/-- Leaves of a nested list, in left-to-right order. -/
def NEL.leaves : NEL → List ℕ
  | .nil => []
  | .cons x xs => x.leaves ++ NEL.leaves xs
end

mutual
/-- Python `depth` from `indispensibility.py`: the depth of an int is 0, the
depth of a list is 0 if it is empty and otherwise 1 + the maximum depth of
its elements (this matches the iterative `chain`-based implementation). -/
def NE.depth : NE → ℕ
  | .int _ => 0
  | .list .nil => 0
  | .list (.cons x xs) => 1 + max x.depth (NEL.maxDepth xs)

/-- Maximum depth of the elements of a nested list (0 for the empty list). -/
def NEL.maxDepth : NEL → ℕ
  | .nil => 0
  | .cons x xs => max x.depth (NEL.maxDepth xs)
end

mutual
/-- Python `MetricLayer._increment_nested_list`: add `k` to every int in a
nested list element (the source mutates in place; we return the new value). -/
def NE.incr (k : ℕ) : NE → NE
  | .int n => .int (n + k)
  | .list xs => .list (NEL.incr k xs)

/-- Python `_increment_nested_list` on a nested list. -/
def NEL.incr (k : ℕ) : NEL → NEL
  | .nil => .nil
  | .cons x xs => .cons (x.incr k) (NEL.incr k xs)
end

mutual
/-- Python `MetricLayer._count_nested_list`: number of leaves. -/
def NE.count : NE → ℕ
  | .int _ => 1
  | .list xs => NEL.count xs

/-- Python `_count_nested_list` on a nested list. -/
def NEL.count : NEL → ℕ
  | .nil => 0
  | .cons x xs => x.count + NEL.count xs
end

/-- Append on embedded nested lists. -/
def NEL.append : NEL → NEL → NEL
  | .nil, ys => ys
  | .cons x xs, ys => .cons x (NEL.append xs ys)

/-- Length (number of top-level elements) of an embedded nested list. -/
def NEL.length : NEL → ℕ
  | .nil => 0
  | .cons _ xs => 1 + NEL.length xs

/-- Convert an embedded nested list to a standard `List` of its elements. -/
def NEL.toList : NEL → List NE
  | .nil => []
  | .cons x xs => x :: NEL.toList xs

/-!
## MetricLayer

A Python `MetricLayer` is determined by its `groups` attribute, a list whose
elements are ints or `MetricLayer`s.  We embed a metric layer as the value of
its groups list: `MLGL` is the groups list, `MLG` a single group.
-/

mutual
/-- One group of a `MetricLayer`: an int or a nested metric layer. -/
inductive MLG where
  | int : ℕ → MLG
  | layer : MLGL → MLG
  deriving DecidableEq

/-- The groups list of a `MetricLayer`. -/
inductive MLGL where
  | nil : MLGL
  | cons : MLG → MLGL → MLGL
  deriving DecidableEq
end

/-- Convert a standard list of groups to an embedded groups list. -/
def MLGL.ofList : List MLG → MLGL
  | [] => .nil
  | g :: gs => .cons g (MLGL.ofList gs)

/-- A list of `g` copies of the group `.layer other` (Python `[other] * g`). -/
def MLGL.replicateLayer : ℕ → MLGL → MLGL
  | 0, _ => .nil
  | n + 1, other => .cons (.layer other) (MLGL.replicateLayer n other)

/-- Python helper loop: `while n > 0: n -= 2; out.append(2)`.
`twos 1 = [2]` exactly as in Python (1 - 2 < 0 stops the loop after one 2). -/
def twosList : ℕ → List ℕ
  | 0 => []
  | 1 => [2]
  | n + 2 => 2 :: twosList n

/-- Python `decompose_to_twos_and_threes`: subtract 3 once if `n` is odd
(appending a 3), fill with 2's, and reverse, so 2's come first and a single 3
comes last.  Natural subtraction `n - 3` agrees with Python for every `n`
reachable here (`decompose_to_twos_and_threes 1 = [3]` exactly as in Python,
where `1 - 3 = -2` ends the while loop immediately). -/
def decompose_to_twos_and_threes (n : ℕ) : List ℕ :=
  ((if n % 2 = 1 then [3] else []) ++ twosList (if n % 2 = 1 then n - 3 else n)).reverse

mutual
/-- Python `MetricLayer._remove_redundant_nesting`: a groups list consisting of
a single nested layer is replaced by that layer's groups (recursively); in any
other groups list each nested layer is recursively cleaned and replaced by a
bare int when it has become a singleton int layer. -/
def removeRedundant : MLGL → MLGL
  | .cons (.layer gs) .nil => removeRedundant gs
  | .nil => .nil
  | .cons g rest => .cons (rrGroup g) (rrEach rest)

/-- The per-element loop of `_remove_redundant_nesting`. -/
def rrEach : MLGL → MLGL
  | .nil => .nil
  | .cons g rest => .cons (rrGroup g) (rrEach rest)

/-- Cleaning of one group in `_remove_redundant_nesting`'s per-element loop. -/
def rrGroup : MLG → MLG
  | .int n => .int n
  | .layer gs =>
    match removeRedundant gs with
    | .cons (.int n) .nil => .int n
    | r => .layer r
end

mutual
/-- Python `MetricLayer.break_up_large_numbers`: every int group greater
than 3 becomes the nested layer `MetricLayer(*decompose_to_twos_and_threes n)`
(whose constructor, with default flags, just removes redundant nesting);
nested layers are processed recursively. -/
def break_up_large_numbers : MLGL → MLGL
  | .nil => .nil
  | .cons g rest => .cons (breakGroup g) (break_up_large_numbers rest)

/-- Python `break_up_large_numbers` on a single group. -/
def breakGroup : MLG → MLG
  | .int n =>
    if 3 < n then
      .layer (removeRedundant (MLGL.ofList ((decompose_to_twos_and_threes n).map MLG.int)))
    else .int n
  | .layer gs => .layer (break_up_large_numbers gs)
end

/-- The Python `MetricLayer` constructor on an already type-checked groups
list: optionally break up large numbers, then remove redundant nesting. -/
def mkMetricLayer (gs : MLGL) (breakUp : Bool) : MLGL :=
  removeRedundant (if breakUp then break_up_large_numbers gs else gs)

mutual
/-- Groups of the Python product `MetricLayer.__mul__`:
`self * other = MetricLayer(*(group * other for group in self.groups))`;
this is the generator's list, each product group wrapped as a layer. -/
def mulGroups : MLGL → MLGL → MLGL
  | .nil, _ => .nil
  | .cons g rest, other => .cons (.layer (mulGroup g other)) (mulGroups rest other)

/-- Groups of `group * other` for a single group.  An int group `g` uses
`MetricLayer.__rmul__`: `other` itself when `g = 1`, otherwise
`MetricLayer(*([other] * g))`; a layer group multiplies recursively. -/
def mulGroup : MLG → MLGL → MLGL
  | .int g, other => if g = 1 then other else removeRedundant (MLGL.replicateLayer g other)
  | .layer m, other => removeRedundant (mulGroups m other)
end

/-- Python `MetricLayer.__mul__` (the constructor removes redundant nesting). -/
def mulML (a other : MLGL) : MLGL := removeRedundant (mulGroups a other)

mutual
/-- Total beat count of a groups list: an int group contributes itself, a
nested layer its own beat count.  (Not a function of the source, but the `N`
the specification's claims quantify over.) -/
def beatCount : MLGL → ℕ
  | .nil => 0
  | .cons g rest => beatCountG g + beatCount rest

/-- Beat count of one group. -/
def beatCountG : MLG → ℕ
  | .int n => n
  | .layer gs => beatCount gs
end

mutual
/-- Well-formedness of a groups list: nonempty, every int group positive,
every nested layer well-formed.  This captures the metric layers reachable
from valid meter expressions (positive integer literals). -/
def wfML : MLGL → Bool
  | .nil => false
  | .cons g rest => wfG g && wfEach rest

/-- Every group of the list is well-formed. -/
def wfEach : MLGL → Bool
  | .nil => true
  | .cons g rest => wfG g && wfEach rest

/-- Well-formedness of one group. -/
def wfG : MLG → Bool
  | .int n => decide (1 ≤ n)
  | .layer gs => wfML gs
end

/-!
## Nested beat groups (`MetricLayer.get_nested_beat_groups`)

The Python method iterates over `reversed(self.groups)` with a running beat
counter starting at 0 and appends one beat group per group.  We embed this by
recursing on the groups list from the right: the recursive call handles the
tail (the groups *after* `g`, which Python numbers *first*), and `g`'s beat
group is then appended at the running counter returned by that call.
-/

/-- The list `[0, 1, ..., n-1]` as a nested-list of int elements (Python
`list(range(n))`). -/
def rangeNEL : ℕ → NEL
  | 0 => .nil
  | n + 1 => NEL.append (rangeNEL n) (.cons (.int n) .nil)

mutual
/-- Python `MetricLayer.get_nested_beat_groups` together with the running
`beat` counter: returns the beat-groups list and the total number of beats
numbered. -/
def nestedBeatGroups : MLGL → NEL × ℕ
  | .nil => (.nil, 0)
  | .cons g rest =>
    let (outRest, beat) := nestedBeatGroups rest
    let bg := beatGroupOf g beat
    (NEL.append outRest (.cons bg .nil), beat + bg.count)

/-- The beat group of one group at running counter `beat`: Python
`list(range(group))` for an int, `group.get_nested_beat_groups()` for a
layer, incremented by `beat` with `_increment_nested_list`. -/
def beatGroupOf : MLG → ℕ → NE
  | .int n, beat => .list (NEL.incr beat (rangeNEL n))
  | .layer gs, beat => .list (NEL.incr beat (nestedBeatGroups gs).1)
end

/-!
## Depth normalization (`normalize_depth`)

Python wraps each top-level element in singleton lists until it reaches the
maximum depth of the elements, and then recursively normalizes each element
that is a list.  Descending into the added singleton wrappers performs no
further wrapping (a singleton's element is already at its maximum depth), so
the recursion is equivalent to wrapping the element *with its own inside
already normalized*; that form is structurally recursive and is what we
define.  Python's `max()` raises `ValueError` on an empty list; an empty
list never occurs for well-formed metric layers, and we return `nil` there.
-/

/-- Wrap an element in `k` singleton lists. -/
def wrapIter : ℕ → NE → NE
  | 0, x => x
  | k + 1, x => wrapIter k (.list (.cons x .nil))

mutual
/-- The element-wise loop of `normalize_depth` for target depth `m`. -/
def normEach (m : ℕ) : NEL → NEL
  | .nil => .nil
  | .cons x rest => .cons (wrapIter (m - x.depth) (normInside x)) (normEach m rest)

/-- Recursive normalization of the inside of one element. -/
def normInside : NE → NE
  | .int n => .int n
  | .list xs => .list (normEach (NEL.maxDepth xs) xs)
end

/-- Python `normalize_depth` (with `in_place=False` semantics; the claims
about values are unaffected by the in-place flag). -/
def normalize_depth (xs : NEL) : NEL := normEach (NEL.maxDepth xs) xs

/-!
## `flatten_beat_groups`

The Python function deep-copies its argument and then pops: first the head of
every sub-group, then (if `upbeats_before_group_length`) the head of every
remaining nonempty sub-group, then repeatedly the head of the first sub-group
of maximal remaining length until all are empty.  Sub-groups are Python
lists; popping from an int or an empty sub-group raises, which we embed as
`none`.  The final while-loop pops exactly one element per iteration, so it
is embedded with fuel equal to the total number of remaining elements.
-/

/-- View the top-level elements as sub-groups; `none` embeds the
`AttributeError` Python raises when popping from a non-list. -/
def toSubgroups : NEL → Option (List NEL)
  | .nil => some []
  | .cons (.int _) _ => none
  | .cons (.list xs) rest => (toSubgroups rest).map (xs :: ·)

/-- First loop of `flatten_beat_groups`: pop the head of every sub-group
(`none` embeds the `IndexError` on an empty sub-group). -/
def popFirsts : List NEL → Option (NEL × List NEL)
  | [] => some (.nil, [])
  | .nil :: _ => none
  | .cons h t :: rest => (popFirsts rest).map fun (outs, rems) => (.cons h outs, t :: rems)

/-- Second loop (`upbeats_before_group_length`): pop the head of every
remaining nonempty sub-group. -/
def popUpbeats : List NEL → NEL × List NEL
  | [] => (.nil, [])
  | .nil :: rest =>
    let (outs, rems) := popUpbeats rest
    (outs, .nil :: rems)
  | .cons h t :: rest =>
    let (outs, rems) := popUpbeats rest
    (.cons h outs, t :: rems)

/-- Maximum remaining sub-group length (Python `max(len(s) for s in ...)`,
which raises on an empty list of sub-groups; that case is unreachable from
well-formed layers and we return 0 there). -/
def maxSubLen : List NEL → ℕ
  | [] => 0
  | xs :: rest => max xs.length (maxSubLen rest)

/-- Pop the head of the first sub-group whose length is `m` (the inner
`for`/`break` of the while loop).  Unreachable fallbacks return junk; they
are excluded by `m` being the positive maximum length. -/
def popMaxOne (m : ℕ) : List NEL → NE × List NEL
  | [] => (.int 0, [])
  | xs :: rest =>
    if xs.length = m then
      match xs with
      | .cons h t => (h, t :: rest)
      | .nil => (.int 0, .nil :: rest)
    else
      let (e, rems) := popMaxOne m rest
      (e, xs :: rems)

/-- Total number of elements remaining over all sub-groups. -/
def totalLen : List NEL → ℕ
  | [] => 0
  | xs :: rest => xs.length + totalLen rest

/-- The while loop of `flatten_beat_groups`, with fuel; each iteration either
observes maximal length 0 and stops, or pops exactly one element. -/
def whileLoop : ℕ → List NEL → NEL
  | 0, _ => .nil
  | fuel + 1, subs =>
    let m := maxSubLen subs
    if m = 0 then .nil
    else
      let (e, rems) := popMaxOne m subs
      .cons e (whileLoop fuel rems)

/-- Python `flatten_beat_groups`. -/
def flatten_beat_groups (beatGroups : NEL) (upbeatsBeforeGroupLength : Bool) : Option NEL := do
  let subs ← toSubgroups beatGroups
  let (outs1, rems1) ← popFirsts subs
  let (outs2, rems2) := if upbeatsBeforeGroupLength then popUpbeats rems1 else (.nil, rems1)
  let outs3 := whileLoop (totalLen rems2) rems2
  some (NEL.append outs1 (NEL.append outs2 outs3))

/-!
## Backward beat priorities and the indispensability array
-/

/-- Depth of the top-level Python list holding a nested list value. -/
def depthNEL (xs : NEL) : ℕ := NE.depth (.list xs)

/-- The `while depth(...) > 1: flatten` loop of
`MetricLayer.get_backward_beat_priorities`, with fuel (each flatten of a
depth-normalized value reduces the depth by exactly one, so the initial
depth is sufficient fuel; exhausted fuel yields `none`, never a value). -/
def bbpLoop (up : Bool) : ℕ → NEL → Option NEL
  | 0, xs => if depthNEL xs ≤ 1 then some xs else none
  | fuel + 1, xs =>
    if depthNEL xs ≤ 1 then some xs
    else do
      let ys ← flatten_beat_groups xs up
      bbpLoop up fuel ys

/-- Python `MetricLayer.get_backward_beat_priorities`. -/
def get_backward_beat_priorities (gs : MLGL) (up : Bool) : Option NEL :=
  let nested := normalize_depth (nestedBeatGroups gs).1
  bbpLoop up (depthNEL nested) nested

/-- Read a flat nested list as a Python list of ints; `none` embeds the
`ValueError` that `list.index` raises when some rank is missing (as happens
whenever a non-int survives to this point, see the argument in the file
comments). -/
def toInts : NEL → Option (List ℕ)
  | .nil => some []
  | .cons (.int n) rest => (toInts rest).map (n :: ·)
  | .cons (.list _) _ => none

/-- Python `backward_beat_priorities.index(i)`: position of the first
occurrence, `none` embedding the `ValueError` when absent. -/
def pyIndex : List ℕ → ℕ → Option ℕ
  | [], _ => none
  | x :: rest, i => if x = i then some 0 else (pyIndex rest i).map (· + 1)

/-- The list comprehension
`[length - 1 - backward_beat_priorities.index(i) for i in range(length)]`,
iterating over the `i`s. -/
def backwardIndArray (l : List ℕ) : List ℕ → Option (List ℕ)
  | [] => some []
  | i :: is => do
    let j ← pyIndex l i
    let rest ← backwardIndArray l is
    some ((l.length - 1 - j) :: rest)

/-- Python `rotate(l, 1) = l[1:] + l[:1]`. -/
def pyRotate1 (l : List ℕ) : List ℕ := l.drop 1 ++ l.take 1

/-- Python `MetricLayer.get_indispensibility_array` with `normalize=False`
(the spelling follows the source). -/
def get_indispensibility_array (gs : MLGL) (up : Bool) : Option (List ℕ) := do
  let bbpNested ← get_backward_beat_priorities gs up
  let bbp ← toInts bbpNested
  let backward ← backwardIndArray bbp (List.range bbp.length)
  some (pyRotate1 backward).reverse

/-- Python `max(list)`: `foldl max 0` agrees with it on nonempty lists of
naturals; the empty case (where Python raises `ValueError`) flows into the
`max = 0` check of the caller, which also embeds to `none`. -/
def pyMaxNat (l : List ℕ) : ℕ := l.foldl max 0

/-- Python `get_indispensibility_array` with `normalize=True`: every entry is
divided by the maximum; `none` embeds the `ZeroDivisionError` when that
maximum is 0. -/
def get_indispensibility_array_normalized (gs : MLGL) (up : Bool) : Option (List ℚ) := do
  let arr ← get_indispensibility_array gs up
  let m := pyMaxNat arr
  if m = 0 then none
  else some (arr.map fun x => (x : ℚ) / (m : ℚ))

/-!
## `MeterArithmeticGroup`

A parsed node is a bare number (`operation is None`), a `"+"` node or a
`"*"` node over a list of child nodes.
-/

mutual
/-- Python `MeterArithmeticGroup`. -/
inductive MAG where
  | num : ℕ → MAG
  | plus : MAGL → MAG
  | times : MAGL → MAG
  deriving DecidableEq

/-- A list of `MeterArithmeticGroup`s. -/
inductive MAGL where
  | nil : MAGL
  | cons : MAG → MAGL → MAGL
  deriving DecidableEq
end

/-- Convert a standard list of nodes to an embedded node list. -/
def MAGL.ofList : List MAG → MAGL
  | [] => .nil
  | m :: ms => .cons m (MAGL.ofList ms)

mutual
/-- Python `MeterArithmeticGroup.to_metric_layer`: a number becomes
`MetricLayer(n, break_up_large_numbers=b)`; a `"+"` node builds a layer whose
groups are the children's layers; a `"*"` node is
`functools.reduce(operator.mul, children)` (Python's `reduce` raises on an
empty list, which is unreachable from the parser; we return the empty layer
there). -/
def MAG.to_metric_layer (b : Bool) : MAG → MLGL
  | .num n => mkMetricLayer (.cons (.int n) .nil) b
  | .plus es => mkMetricLayer (layersOf b es) b
  | .times es => timesStart b es

/-- The groups list `[x.to_metric_layer(b) for x in elements]` of a `"+"`
node (each child layer is one group). -/
def layersOf (b : Bool) : MAGL → MLGL
  | .nil => .nil
  | .cons e rest => .cons (.layer (MAG.to_metric_layer b e)) (layersOf b rest)

/-- Python `functools.reduce(operator.mul, ...)`: seed with the first element. -/
def timesStart (b : Bool) : MAGL → MLGL
  | .nil => .nil
  | .cons e rest => timesFold b (MAG.to_metric_layer b e) rest

/-- The fold of `functools.reduce(operator.mul, ...)`. -/
def timesFold (b : Bool) (acc : MLGL) : MAGL → MLGL
  | .nil => acc
  | .cons e rest => timesFold b (mulML acc (MAG.to_metric_layer b e)) rest
end

mutual
/-- Validity of a parsed expression: every integer literal is positive and
every node has at least one child.  This is the "valid meter arithmetic
expression" of the specification (its data model requires leaf nodes to
carry a single positive integer); the parser itself accepts `"0"`, whose
downstream evaluation raises. -/
def MAG.valid : MAG → Bool
  | .num n => decide (1 ≤ n)
  | .plus .nil => false
  | .plus (.cons e rest) => e.valid && MAGL.valid rest
  | .times .nil => false
  | .times (.cons e rest) => e.valid && MAGL.valid rest

/-- Validity of every node of a list. -/
def MAGL.valid : MAGL → Bool
  | .nil => true
  | .cons e rest => e.valid && MAGL.valid rest
end

mutual
/-- The total beat count denoted by an expression: literals count
themselves, `"+"` nodes add, `"*"` nodes multiply. -/
def MAG.beats : MAG → ℕ
  | .num n => n
  | .plus es => MAGL.sumBeats es
  | .times es => MAGL.prodBeats es

/-- Sum of the children's beat counts. -/
def MAGL.sumBeats : MAGL → ℕ
  | .nil => 0
  | .cons e rest => e.beats + MAGL.sumBeats rest

/-- Product of the children's beat counts. -/
def MAGL.prodBeats : MAGL → ℕ
  | .nil => 1
  | .cons e rest => e.beats * MAGL.prodBeats rest
end

/-!
## The parser (`MeterArithmeticGroup.parse`)

The parser works on the string's character list.  Its only non-structural
recursion is re-parsing chunks (substrings), which always strictly decreases
the string length; all the mutually recursive pieces therefore share one
fuel argument, decremented on every call, and the public entry point passes
fuel amply larger than the input length (`none` from exhausted fuel is
unreachable there).
-/

/-- Characters allowed in a meter arithmetic expression (after removing
spaces). -/
def allowedChar (c : Char) : Bool :=
  "0123456789+*()".toList.any (fun x => x = c)

/-- Operator characters. -/
def isOpChar (c : Char) : Bool := c = '+' || c = '*'

/-- The assert that rejects `"++"`, `"+*"`, `"*+"` and `"**"` as substrings. -/
def noAdjacentOps : List Char → Bool
  | a :: b :: rest => !(isOpChar a && isOpChar b) && noAdjacentOps (b :: rest)
  | _ => true

/-- Python `int(s)` on a digits-only string. -/
def digitsToNat (s : List Char) : ℕ :=
  s.foldl (fun a c => 10 * a + (c.toNat - 48)) 0

/-- The chunking loop of `parse`: split the input at parenthesis level 0
into operator chunks and content chunks, stripping the outermost layer of
parentheses.  Returns the chunks (with the trailing chunk appended when
nonempty, as in the source) and the final parenthesis level; `none` embeds
the assert on a close-parenthesis at level 0. -/
def chunkLoop : List Char → ℕ → List (List Char) → List Char →
    Option (List (List Char) × ℕ)
  | [], pl, chunks, cur =>
    some (chunks ++ (if cur.isEmpty then [] else [cur]), pl)
  | c :: rest, pl, chunks, cur =>
    if pl = 0 && isOpChar c then
      chunkLoop rest 0 (chunks ++ (if cur.isEmpty then [] else [cur]) ++ [[c]]) []
    else if c = '(' then
      if pl = 0 then chunkLoop rest 1 chunks cur
      else chunkLoop rest (pl + 1) chunks (cur ++ [c])
    else if c = ')' then
      match pl with
      | 0 => none
      | 1 => chunkLoop rest 0 (chunks ++ [cur]) []
      | pl' + 2 => chunkLoop rest (pl' + 1) chunks (cur ++ [c])
    else chunkLoop rest pl chunks (cur ++ [c])

/-- The inner while loop of the multiplication merge: consume alternating
`"*"`-chunk/content-chunk pairs; `none` embeds the `IndexError` on a
trailing `"*"` chunk (unreachable given the leading/trailing-operator
assert). -/
def starTail : List (List Char) → Option (List (List Char) × List (List Char))
  | c :: y :: rest =>
    if c = ['*'] then (starTail rest).map fun (more, rem) => (y :: more, rem)
    else some ([], c :: y :: rest)
  | [c] => if c = ['*'] then none else some ([], [c])
  | [] => some ([], [])

mutual
/-- Python `MeterArithmeticGroup.parse` on a character list, with fuel. -/
def parseAux : ℕ → List Char → Option MAG
  | 0, _ => none
  | fuel + 1, s0 =>
    let s := s0.filter (· ≠ ' ')
    if s.isEmpty then none
    else if !(s.all allowedChar) then none
    else if !("(0123456789".toList.any (fun x => some x = s.head?)) then none
    else if !(")0123456789".toList.any (fun x => some x = s.getLast?)) then none
    else if !(noAdjacentOps s) then none
    else if s.any (fun c => c = '(' || c = ')' || c = '*' || c = '+') then do
      let (chunks, pl) ← chunkLoop s 0 [] []
      if pl ≠ 0 then none
      else do
        let merged ← mergeChunks fuel chunks
        let kept := merged.filter (fun x => x ≠ Sum.inl ['+'])
        let elems ← parseElems fuel kept
        some (MAG.plus (MAGL.ofList elems))
    else
      some (MAG.num (digitsToNat s))

/-- The `merged_multiplies` loop of `parse`: runs of multiplications are
collected into one `"*"` node (parsing each factor), other chunks are kept
as strings. -/
def mergeChunks : ℕ → List (List Char) → Option (List (List Char ⊕ MAG))
  | 0, _ => none
  | fuel + 1, chunks =>
    match chunks with
    | [] => some []
    | c1 :: rest =>
      match rest with
      | c2 :: rest2 =>
        if c2 = ['*'] then
          match rest2 with
          | [] => do
            -- `chunks[i:i+3:2]` truncates to `[chunks[i]]`; the while loop
            -- body never runs.
            let ms ← parseList fuel [c1]
            some [Sum.inr (MAG.times (MAGL.ofList ms))]
          | c3 :: rest3 => do
            let (more, rem) ← starTail rest3
            let ms ← parseList fuel (c1 :: c3 :: more)
            let tail ← mergeChunks fuel rem
            some (Sum.inr (MAG.times (MAGL.ofList ms)) :: tail)
        else do
          let tail ← mergeChunks fuel rest
          some (Sum.inl c1 :: tail)
      | [] => some [Sum.inl c1]

/-- Parse every chunk of a list (the factors of a `"*"` node). -/
def parseList : ℕ → List (List Char) → Option (List MAG)
  | 0, _ => none
  | _ + 1, [] => some []
  | fuel + 1, c :: rest => do
    let m ← parseAux fuel c
    let ms ← parseList fuel rest
    some (m :: ms)

/-- The final list comprehension of `parse`: parse the remaining string
chunks, keep the already-built `"*"` nodes. -/
def parseElems : ℕ → List (List Char ⊕ MAG) → Option (List MAG)
  | 0, _ => none
  | _ + 1, [] => some []
  | fuel + 1, Sum.inl c :: rest => do
    let m ← parseAux fuel c
    let ms ← parseElems fuel rest
    some (m :: ms)
  | fuel + 1, Sum.inr m :: rest => do
    let ms ← parseElems fuel rest
    some (m :: ms)
end

/-- Python `MeterArithmeticGroup.parse` on a string.  The fuel bound, well
above the input length, is provably never exhausted (every recursive parse
is on a strictly shorter chunk). -/
def MeterArithmeticGroup.parse (s : String) : Option MAG :=
  parseAux (4 * s.length + 8) s.toList

/-!
## Public entry points (`indispensibility_array_from_expression`,
`barlow_style_indispensibility_array`)
-/

/-- Python `indispensibility_array_from_expression` with `normalize=False`.
Arguments follow the source's `split_large_numbers` and
`upbeats_before_group_length` keywords. -/
def indispensibility_array_from_expression (s : String) (split up : Bool) :
    Option (List ℕ) := do
  let g ← MeterArithmeticGroup.parse s
  get_indispensibility_array (g.to_metric_layer split) up

/-- Python `indispensibility_array_from_expression` with `normalize=True`. -/
def indispensibility_array_from_expression_normalized (s : String) (split up : Bool) :
    Option (List ℚ) := do
  let g ← MeterArithmeticGroup.parse s
  get_indispensibility_array_normalized (g.to_metric_layer split) up

/-- Python `barlow_style_indispensibility_array`: joins the integer strata
with `"*"` and evaluates the expression with `split_large_numbers=True` and
`upbeats_before_group_length=False`. -/
def barlow_style_indispensibility_array (strata : List ℕ) : Option (List ℕ) :=
  indispensibility_array_from_expression
    (String.intercalate "*" (strata.map toString)) true false

/-!
## Auxiliary predicates for the verification

`goodb`: no empty list occurs anywhere (true of every nested beat-group list
of a well-formed metric layer).  `unifb d`: the element is a tree of uniform
leaf depth `d` with no empty list (the state reached after depth
normalization and preserved by flattening).
-/

/-- Is the embedded list empty? -/
def NEL.isNilb : NEL → Bool
  | .nil => true
  | .cons _ _ => false

mutual
/-- No empty list occurs inside the element. -/
def NE.goodb : NE → Bool
  | .int _ => true
  | .list xs => !xs.isNilb && NEL.goodb xs

/-- Every element of the list is `goodb`. -/
def NEL.goodb : NEL → Bool
  | .nil => true
  | .cons x rest => x.goodb && NEL.goodb rest
end

mutual
/-- Uniform tree of leaf depth `d` (every list nonempty, every leaf at
depth exactly `d`). -/
def NE.unifb : ℕ → NE → Bool
  | 0, .int _ => true
  | _ + 1, .int _ => false
  | 0, .list _ => false
  | d + 1, .list xs => !xs.isNilb && NEL.unifb d xs

/-- Every element of the list is uniform of depth `d`. -/
def NEL.unifb : ℕ → NEL → Bool
  | _, .nil => true
  | d, .cons x rest => NE.unifb d x && NEL.unifb d rest
end

/-- Is the groups list empty? -/
def MLGL.isNilb : MLGL → Bool
  | .nil => true
  | .cons _ _ => false

/-- All elements of all sub-groups, in order. -/
def concatSubs : List NEL → List NE
  | [] => []
  | s :: rest => s.toList ++ concatSubs rest

/-- Leaves of a standard list of elements. -/
def leavesOfList : List NE → List ℕ
  | [] => []
  | x :: rest => x.leaves ++ leavesOfList rest

/-!
## The `MetricLayer` constructor's type check

`MetricLayer.__init__` asserts that every group is an int or a
`MetricLayer`; there is no check on the sign of int groups.  `PyObj` models
an arbitrary Python value passed as a group: an int (of either sign), a
metric layer, or anything else.
-/

/-- An arbitrary Python value passed to the `MetricLayer` constructor. -/
inductive PyObj where
  | int : ℤ → PyObj
  | layer : MLGL → PyObj
  | other : PyObj
  deriving DecidableEq

/-- One group's type check: ints and layers pass (a non-positive int `n`
passes the check and later behaves exactly like `n.toNat`, since Python's
`range(n)` is empty for `n ≤ 0`); anything else fails the assert. -/
def pyObjToGroup : PyObj → Option MLG
  | .int n => some (.int n.toNat)
  | .layer gs => some (.layer gs)
  | .other => none

/-- The `assert all(isinstance(x, (int, MetricLayer)) for x in groups)`
loop. -/
def typeCheckGroups : List PyObj → Option (List MLG)
  | [] => some []
  | o :: rest => do
    let g ← pyObjToGroup o
    let gs ← typeCheckGroups rest
    some (g :: gs)

/-- Python `MetricLayer.__init__`: type-check the groups, then optionally
break up large numbers and remove redundant nesting; `none` embeds the
`AssertionError` on a non-int, non-layer group. -/
def MetricLayer_init (objs : List PyObj) (breakUp : Bool) : Option MLGL :=
  (typeCheckGroups objs).map (fun gs => mkMetricLayer (MLGL.ofList gs) breakUp)

/-!
## Basic lemmas about the nested-list embedding
-/

theorem NEL.toList_append : (xs ys : NEL) →
    (NEL.append xs ys).toList = xs.toList ++ ys.toList
  | .nil, ys => by simp [NEL.append, NEL.toList]
  | .cons x rest, ys => by simp [NEL.append, NEL.toList, NEL.toList_append rest ys]

theorem NEL.leaves_append : (xs ys : NEL) →
    (NEL.append xs ys).leaves = xs.leaves ++ ys.leaves
  | .nil, ys => by simp [NEL.append, NEL.leaves]
  | .cons x rest, ys => by simp [NEL.append, NEL.leaves, NEL.leaves_append rest ys]

theorem NEL.length_append : (xs ys : NEL) →
    (NEL.append xs ys).length = xs.length + ys.length
  | .nil, ys => by simp [NEL.append, NEL.length]
  | .cons x rest, ys => by
    simp [NEL.append, NEL.length, NEL.length_append rest ys]; omega

mutual
theorem NE.leaves_incr (k : ℕ) : (x : NE) → (x.incr k).leaves = x.leaves.map (· + k)
  | .int n => by simp [NE.incr, NE.leaves]
  | .list xs => by simpa [NE.incr, NE.leaves] using NEL.incr_leaves k xs

theorem NEL.incr_leaves (k : ℕ) :
    (xs : NEL) → (NEL.incr k xs).leaves = xs.leaves.map (· + k)
  | .nil => by simp [NEL.incr, NEL.leaves]
  | .cons x rest => by
    simp [NEL.incr, NEL.leaves, NE.leaves_incr k x, NEL.incr_leaves k rest]
end

mutual
theorem NE.count_eq_leaves_length : (x : NE) → x.count = x.leaves.length
  | .int n => by simp [NE.count, NE.leaves]
  | .list xs => by simpa [NE.count, NE.leaves] using NEL.count_eq_len_leaves xs

theorem NEL.count_eq_len_leaves : (xs : NEL) → xs.count = xs.leaves.length
  | .nil => by simp [NEL.count, NEL.leaves]
  | .cons x rest => by
    simp [NEL.count, NEL.leaves, NE.count_eq_leaves_length x,
      NEL.count_eq_len_leaves rest]
end

mutual
theorem NE.goodb_incr (k : ℕ) : (x : NE) → (x.incr k).goodb = x.goodb
  | .int n => by simp [NE.incr, NE.goodb]
  | .list xs => by
    cases xs with
    | nil => simp [NE.incr, NEL.incr, NE.goodb, NEL.isNilb]
    | cons y rest =>
      simp [NE.incr, NEL.incr, NE.goodb, NEL.goodb, NEL.isNilb,
        NE.goodb_incr k y, NEL.incr_goodb k rest]

theorem NEL.incr_goodb (k : ℕ) : (xs : NEL) → (NEL.incr k xs).goodb = xs.goodb
  | .nil => by simp [NEL.incr, NEL.goodb]
  | .cons x rest => by
    simp [NEL.incr, NEL.goodb, NE.goodb_incr k x, NEL.incr_goodb k rest]
end

theorem rangeNEL_leaves (n : ℕ) : (rangeNEL n).leaves = List.range n := by
  induction n with
  | zero => simp [rangeNEL, NEL.leaves]
  | succ m ih =>
    simp [rangeNEL, NEL.leaves_append, ih, NEL.leaves, NE.leaves, List.range_succ]

theorem NEL.goodb_append : (xs ys : NEL) →
    (NEL.append xs ys).goodb = (xs.goodb && ys.goodb)
  | .nil, ys => by simp [NEL.append, NEL.goodb]
  | .cons x rest, ys => by
    simp [NEL.append, NEL.goodb, NEL.goodb_append rest ys, Bool.and_assoc]

theorem rangeNEL_goodb (n : ℕ) : (rangeNEL n).goodb = true := by
  induction n with
  | zero => simp [rangeNEL, NEL.goodb]
  | succ m ih =>
    simp [rangeNEL, NEL.goodb_append, ih, NEL.goodb, NE.goodb]

mutual
theorem NE.depth_of_unifb : (d : ℕ) → (x : NE) → NE.unifb d x = true → x.depth = d
  | 0, .int _, _ => by simp [NE.depth]
  | d + 1, .int _, h => by simp [NE.unifb] at h
  | 0, .list _, h => by simp [NE.unifb] at h
  | d + 1, .list .nil, h => by simp [NE.unifb, NEL.isNilb] at h
  | d + 1, .list (.cons x xs), h => by
    simp [NE.unifb, NEL.isNilb, NEL.unifb] at h
    have hx := NE.depth_of_unifb d x h.1
    have hxs := NEL.maxDepth_le_of_unifb d xs h.2
    simp [NE.depth, NEL.maxDepth, hx]
    omega

theorem NEL.maxDepth_le_of_unifb : (d : ℕ) → (xs : NEL) →
    NEL.unifb d xs = true → NEL.maxDepth xs ≤ d
  | _, .nil, _ => by simp [NEL.maxDepth]
  | d, .cons x rest, h => by
    simp [NEL.unifb] at h
    have hx := NE.depth_of_unifb d x h.1
    have hrest := NEL.maxDepth_le_of_unifb d rest h.2
    simp [NEL.maxDepth, hx, hrest]
end

theorem NE.leaves_ne_nil_of_unifb : (d : ℕ) → (x : NE) → NE.unifb d x = true →
    x.leaves ≠ []
  | 0, .int _, _ => by simp [NE.leaves]
  | d + 1, .int _, h => by simp [NE.unifb] at h
  | 0, .list _, h => by simp [NE.unifb] at h
  | d + 1, .list .nil, h => by simp [NE.unifb, NEL.isNilb] at h
  | d + 1, .list (.cons x xs), h => by
    simp [NE.unifb, NEL.isNilb, NEL.unifb] at h
    have hx := NE.leaves_ne_nil_of_unifb d x h.1
    simp [NE.leaves, NEL.leaves, hx]

theorem wrapIter_leaves : (k : ℕ) → (x : NE) → (wrapIter k x).leaves = x.leaves
  | 0, x => by simp [wrapIter]
  | k + 1, x => by
    simp [wrapIter, wrapIter_leaves k, NE.leaves, NEL.leaves]

theorem wrapIter_unifb : (k d : ℕ) → (x : NE) → NE.unifb d x = true →
    NE.unifb (d + k) (wrapIter k x) = true
  | 0, d, x, h => by simpa [wrapIter] using h
  | k + 1, d, x, h => by
    have : NE.unifb (d + 1) (NE.list (.cons x .nil)) = true := by
      simp [NE.unifb, NEL.isNilb, NEL.unifb, h]
    have := wrapIter_unifb k (d + 1) (NE.list (.cons x .nil)) this
    simpa [wrapIter, Nat.add_assoc, Nat.add_comm 1 k] using this

mutual
theorem normInside_spec : (x : NE) → NE.goodb x = true →
    (normInside x).leaves = x.leaves ∧ NE.unifb x.depth (normInside x) = true
  | .int n, _ => by simp [normInside, NE.unifb, NE.depth]
  | .list .nil, h => by simp [NE.goodb, NEL.isNilb] at h
  | .list (.cons x xs), h => by
    simp [NE.goodb, NEL.isNilb, NEL.goodb] at h
    have hrec := normEach_spec (.cons x xs)
      (by simp [NEL.goodb, h.1, h.2]) (NEL.maxDepth (.cons x xs)) le_rfl
    constructor
    · simpa [normInside, NE.leaves] using hrec.1
    · have hne : (normEach (NEL.maxDepth (NEL.cons x xs)) (NEL.cons x xs)).isNilb = false := by
        cases heq : normEach (NEL.maxDepth (NEL.cons x xs)) (NEL.cons x xs) with
        | nil => exact absurd (heq ▸ hrec.2.2) (by simp [NEL.length]; omega)
        | cons _ _ => simp [NEL.isNilb]
      have hd : NE.depth (NE.list (NEL.cons x xs))
          = NEL.maxDepth (NEL.cons x xs) + 1 := by
        simp [NE.depth, NEL.maxDepth]; omega
      rw [normInside, hd]
      simp [NE.unifb, hne, hrec.2.1]

theorem normEach_spec : (xs : NEL) → NEL.goodb xs = true → (m : ℕ) →
    NEL.maxDepth xs ≤ m →
    (normEach m xs).leaves = xs.leaves ∧ NEL.unifb m (normEach m xs) = true ∧
      (normEach m xs).length = xs.length
  | .nil, _, m, _ => by simp [normEach, NEL.leaves, NEL.unifb, NEL.length]
  | .cons x rest, h, m, hm => by
    simp [NEL.goodb] at h
    simp [NEL.maxDepth] at hm
    have hx := normInside_spec x h.1
    have hrest := normEach_spec rest h.2 m hm.2
    have hwleaves := wrapIter_leaves (m - x.depth) (normInside x)
    have hwunif := wrapIter_unifb (m - x.depth) x.depth (normInside x) hx.2
    rw [Nat.add_sub_cancel' hm.1] at hwunif
    refine ⟨?_, ?_, ?_⟩
    · simp [normEach, NEL.leaves, hwleaves, hx.1, hrest.1]
    · simp [normEach, NEL.unifb, hwunif, hrest.2.1]
    · simp [normEach, NEL.length, hrest.2.2]
end

/-- Summary of `normalize_depth` for inputs without empty lists: leaves are
unchanged (in order), the result's elements are uniform trees of depth
`maxDepth`, and the length is unchanged. -/
theorem normalize_depth_spec (xs : NEL) (h : NEL.goodb xs = true) :
    (normalize_depth xs).leaves = xs.leaves ∧
      NEL.unifb (NEL.maxDepth xs) (normalize_depth xs) = true ∧
      (normalize_depth xs).length = xs.length :=
  normEach_spec xs h (NEL.maxDepth xs) le_rfl

/-!
## Lemmas about `flatten_beat_groups`
-/

theorem leavesOfList_append (l1 l2 : List NE) :
    leavesOfList (l1 ++ l2) = leavesOfList l1 ++ leavesOfList l2 := by
  induction l1 with
  | nil => simp [leavesOfList]
  | cons x rest ih => simp [leavesOfList, ih]

theorem NEL.leaves_eq_leavesOfList : (xs : NEL) → xs.leaves = leavesOfList xs.toList
  | .nil => by simp [NEL.leaves, NEL.toList, leavesOfList]
  | .cons x rest => by
    simp [NEL.leaves, NEL.toList, leavesOfList, NEL.leaves_eq_leavesOfList rest]

theorem leavesOfList_eq_flatten (l : List NE) :
    leavesOfList l = (l.map NE.leaves).flatten := by
  induction l with
  | nil => simp [leavesOfList]
  | cons x rest ih => simp [leavesOfList, ih]

theorem leavesOfList_perm_of_perm {l1 l2 : List NE} (h : l1.Perm l2) :
    (leavesOfList l1).Perm (leavesOfList l2) := by
  rw [leavesOfList_eq_flatten, leavesOfList_eq_flatten]
  exact (h.map NE.leaves).flatten

theorem NEL.length_toList : (xs : NEL) → xs.toList.length = xs.length
  | .nil => by simp [NEL.toList, NEL.length]
  | .cons x rest => by
    simp [NEL.toList, NEL.length, NEL.length_toList rest]; omega

theorem concatSubs_length (subs : List NEL) :
    (concatSubs subs).length = totalLen subs := by
  induction subs with
  | nil => simp [concatSubs, totalLen]
  | cons s rest ih => simp [concatSubs, totalLen, ih, NEL.length_toList]

theorem concatSubs_eq_nil_of_maxSubLen_zero {subs : List NEL}
    (h : maxSubLen subs = 0) : concatSubs subs = [] := by
  induction subs with
  | nil => simp [concatSubs]
  | cons s rest ih =>
    simp [maxSubLen] at h
    have hs : s = .nil := by
      cases s with
      | nil => rfl
      | cons a b => simp [NEL.length] at h
    subst hs
    simp [concatSubs, NEL.toList, ih h.2]

theorem toSubgroups_spec : (d : ℕ) → (xs : NEL) → NEL.unifb (d + 1) xs = true →
    ∃ subs, toSubgroups xs = some subs ∧ xs.toList = subs.map NE.list ∧
      (∀ s ∈ subs, s.isNilb = false) ∧ (∀ s ∈ subs, NEL.unifb d s = true)
  | d, .nil, _ => ⟨[], by simp [toSubgroups, NEL.toList]⟩
  | d, .cons (.int _) rest, h => by simp [NEL.unifb, NE.unifb] at h
  | d, .cons (.list s) rest, h => by
    simp [NEL.unifb, NE.unifb] at h
    obtain ⟨subs, h1, h2, h3, h4⟩ := toSubgroups_spec d rest (by simp [h.2])
    refine ⟨s :: subs, ?_, ?_, ?_, ?_⟩
    · simp [toSubgroups, h1]
    · simp [NEL.toList, h2]
    · intro t ht
      rcases List.mem_cons.mp ht with rfl | ht
      · simpa using h.1.1
      · exact h3 t ht
    · intro t ht
      rcases List.mem_cons.mp ht with rfl | ht
      · exact h.1.2
      · exact h4 t ht

theorem leaves_toList_map_list (subs : List NEL) :
    leavesOfList (subs.map NE.list) = leavesOfList (concatSubs subs) := by
  induction subs with
  | nil => simp [concatSubs, leavesOfList]
  | cons s rest ih =>
    simp [concatSubs, leavesOfList, leavesOfList_append, ih, NE.leaves,
      NEL.leaves_eq_leavesOfList]

theorem popFirsts_spec (d : ℕ) : (subs : List NEL) →
    (∀ s ∈ subs, s.isNilb = false) → (∀ s ∈ subs, NEL.unifb d s = true) →
    ∃ outs rems, popFirsts subs = some (outs, rems) ∧
      (concatSubs subs).Perm (outs.toList ++ concatSubs rems) ∧
      NEL.unifb d outs = true ∧ (∀ r ∈ rems, NEL.unifb d r = true) ∧
      rems.length = subs.length ∧
      totalLen subs = outs.length + totalLen rems ∧
      outs.toList.head? = (concatSubs subs).head?
  | [], _, _ => ⟨.nil, [], by
      simp [popFirsts, concatSubs, NEL.toList, NEL.unifb, NEL.length, totalLen]⟩
  | .nil :: rest, hn, _ => by simp [NEL.isNilb] at hn
  | .cons h t :: rest, hn, hu => by
    obtain ⟨outs, rems, h1, h2, h3, h4, h5, h6, h7⟩ :=
      popFirsts_spec d rest (fun s hs => hn s (by simp [hs]))
        (fun s hs => hu s (by simp [hs]))
    have huh : NEL.unifb d (NEL.cons h t) = true := hu _ (by simp)
    simp [NEL.unifb] at huh
    refine ⟨.cons h outs, t :: rems, ?_, ?_, ?_, ?_, ?_, ?_, ?_⟩
    · simp [popFirsts, h1]
    · calc concatSubs (NEL.cons h t :: rest)
          = h :: (t.toList ++ concatSubs rest) := by simp [concatSubs, NEL.toList]
        _ ~ h :: (t.toList ++ (outs.toList ++ concatSubs rems)) :=
            (h2.append_left t.toList).cons h
        _ ~ h :: (outs.toList ++ (t.toList ++ concatSubs rems)) := by
            refine List.Perm.cons h ?_
            calc t.toList ++ (outs.toList ++ concatSubs rems)
                = (t.toList ++ outs.toList) ++ concatSubs rems := by simp
              _ ~ (outs.toList ++ t.toList) ++ concatSubs rems :=
                  (List.perm_append_comm).append_right _
              _ = outs.toList ++ (t.toList ++ concatSubs rems) := by simp
        _ = (NEL.cons h outs).toList ++ concatSubs (t :: rems) := by
            simp [NEL.toList, concatSubs]
    · simp [NEL.unifb, huh.1, h3]
    · intro r hr
      rcases List.mem_cons.mp hr with rfl | hr
      · exact huh.2
      · exact h4 r hr
    · simp [h5]
    · simp [totalLen, NEL.length, h6]; omega
    · simp [NEL.toList, concatSubs]

theorem popUpbeats_spec (d : ℕ) : (subs : List NEL) →
    (∀ s ∈ subs, NEL.unifb d s = true) →
    (concatSubs subs).Perm ((popUpbeats subs).1.toList ++ concatSubs (popUpbeats subs).2) ∧
      NEL.unifb d (popUpbeats subs).1 = true ∧
      (∀ r ∈ (popUpbeats subs).2, NEL.unifb d r = true) ∧
      totalLen subs = (popUpbeats subs).1.length + totalLen (popUpbeats subs).2
  | [], _ => by simp [popUpbeats, concatSubs, NEL.toList, NEL.unifb, NEL.length, totalLen]
  | .nil :: rest, hu => by
    obtain ⟨h2, h3, h4, h5⟩ := popUpbeats_spec d rest (fun s hs => hu s (by simp [hs]))
    refine ⟨?_, ?_, ?_, ?_⟩
    · simpa [popUpbeats, concatSubs, NEL.toList] using h2
    · simpa [popUpbeats] using h3
    · intro r hr
      simp [popUpbeats] at hr
      rcases hr with rfl | hr
      · simp [NEL.unifb]
      · exact h4 r hr
    · simpa [popUpbeats, totalLen, NEL.length] using h5
  | .cons h t :: rest, hu => by
    obtain ⟨h2, h3, h4, h5⟩ := popUpbeats_spec d rest (fun s hs => hu s (by simp [hs]))
    have huh : NEL.unifb d (NEL.cons h t) = true := hu _ (by simp)
    simp [NEL.unifb] at huh
    refine ⟨?_, ?_, ?_, ?_⟩
    · calc concatSubs (NEL.cons h t :: rest)
          = h :: (t.toList ++ concatSubs rest) := by simp [concatSubs, NEL.toList]
        _ ~ h :: (t.toList ++ ((popUpbeats rest).1.toList ++ concatSubs (popUpbeats rest).2)) :=
            (h2.append_left t.toList).cons h
        _ ~ h :: ((popUpbeats rest).1.toList ++ (t.toList ++ concatSubs (popUpbeats rest).2)) := by
            refine List.Perm.cons h ?_
            calc t.toList ++ ((popUpbeats rest).1.toList ++ concatSubs (popUpbeats rest).2)
                = (t.toList ++ (popUpbeats rest).1.toList) ++ concatSubs (popUpbeats rest).2 := by
                  simp
              _ ~ ((popUpbeats rest).1.toList ++ t.toList) ++ concatSubs (popUpbeats rest).2 :=
                  (List.perm_append_comm).append_right _
              _ = (popUpbeats rest).1.toList ++ (t.toList ++ concatSubs (popUpbeats rest).2) := by
                  simp
        _ = (popUpbeats (NEL.cons h t :: rest)).1.toList ++
              concatSubs (popUpbeats (NEL.cons h t :: rest)).2 := by
            simp [popUpbeats, NEL.toList, concatSubs]
    · simp [popUpbeats, NEL.unifb, huh.1, h3]
    · intro r hr
      simp [popUpbeats] at hr
      rcases hr with rfl | hr
      · exact huh.2
      · exact h4 r hr
    · simp [popUpbeats, totalLen, NEL.length, h5]; omega

theorem popMaxOne_spec (d m : ℕ) : (subs : List NEL) → maxSubLen subs = m → 0 < m →
    (∀ s ∈ subs, NEL.unifb d s = true) →
    (concatSubs subs).Perm ((popMaxOne m subs).1 :: concatSubs (popMaxOne m subs).2) ∧
      NE.unifb d (popMaxOne m subs).1 = true ∧
      (∀ r ∈ (popMaxOne m subs).2, NEL.unifb d r = true) ∧
      totalLen subs = totalLen (popMaxOne m subs).2 + 1
  | [], hm, hpos, _ => by simp [maxSubLen] at hm; omega
  | s :: rest, hm, hpos, hu => by
    simp [maxSubLen] at hm
    by_cases hlen : s.length = m
    · cases s with
      | nil => simp [NEL.length] at hlen; omega
      | cons h t =>
        have huh : NEL.unifb d (NEL.cons h t) = true := hu _ (by simp)
        simp [NEL.unifb] at huh
        have hpop : popMaxOne m (NEL.cons h t :: rest) = (h, t :: rest) := by
          simp [popMaxOne, hlen]
        rw [hpop]
        refine ⟨?_, huh.1, ?_, ?_⟩
        · simp [concatSubs, NEL.toList]
        · intro q hq
          rcases List.mem_cons.mp hq with rfl | hq
          · exact huh.2
          · exact hu q (by simp [hq])
        · simp [totalLen, NEL.length]; omega
    · have hrest : maxSubLen rest = m := by omega
      obtain ⟨h2, h3, h4, h5⟩ :=
        popMaxOne_spec d m rest hrest hpos (fun q hq => hu q (by simp [hq]))
      have hpop : popMaxOne m (s :: rest)
          = ((popMaxOne m rest).1, s :: (popMaxOne m rest).2) := by
        simp [popMaxOne, hlen]
      rw [hpop]
      refine ⟨?_, h3, ?_, ?_⟩
      · calc concatSubs (s :: rest)
            = s.toList ++ concatSubs rest := by simp [concatSubs]
          _ ~ s.toList ++ ((popMaxOne m rest).1 :: concatSubs (popMaxOne m rest).2) :=
              h2.append_left s.toList
          _ ~ (popMaxOne m rest).1 :: (s.toList ++ concatSubs (popMaxOne m rest).2) :=
              List.perm_middle
          _ = (popMaxOne m rest).1 :: concatSubs (s :: (popMaxOne m rest).2) := by
              simp [concatSubs]
      · intro q hq
        rcases List.mem_cons.mp hq with rfl | hq
        · exact hu q (by simp)
        · exact h4 q hq
      · simp [totalLen, h5]; omega

theorem whileLoop_spec (d : ℕ) : (fuel : ℕ) → (subs : List NEL) →
    totalLen subs ≤ fuel → (∀ s ∈ subs, NEL.unifb d s = true) →
    NEL.unifb d (whileLoop fuel subs) = true ∧
      (whileLoop fuel subs).toList.Perm (concatSubs subs)
  | 0, subs, hf, _ => by
    have h0 : totalLen subs = 0 := by omega
    have : (concatSubs subs).length = 0 := by rw [concatSubs_length]; omega
    have := List.length_eq_zero.mp this
    simp [whileLoop, NEL.unifb, NEL.toList, this]
  | fuel + 1, subs, hf, hu => by
    by_cases hm : maxSubLen subs = 0
    · simp [whileLoop, hm, NEL.unifb, NEL.toList,
        concatSubs_eq_nil_of_maxSubLen_zero hm]
    · have hpos : 0 < maxSubLen subs := Nat.pos_of_ne_zero hm
      obtain ⟨h2, h3, h4, h5⟩ := popMaxOne_spec d (maxSubLen subs) subs rfl hpos hu
      have hf' : totalLen (popMaxOne (maxSubLen subs) subs).2 ≤ fuel := by omega
      obtain ⟨ih1, ih2⟩ := whileLoop_spec d fuel (popMaxOne (maxSubLen subs) subs).2 hf' h4
      constructor
      · simp [whileLoop, hm, NEL.unifb, h3, ih1]
      · calc (whileLoop (fuel + 1) subs).toList
            = (popMaxOne (maxSubLen subs) subs).1 ::
                (whileLoop fuel (popMaxOne (maxSubLen subs) subs).2).toList := by
              simp [whileLoop, hm, NEL.toList]
          _ ~ (popMaxOne (maxSubLen subs) subs).1 ::
                concatSubs (popMaxOne (maxSubLen subs) subs).2 := ih2.cons _
          _ ~ concatSubs subs := h2.symm

theorem NEL.unifb_append (d : ℕ) : (xs ys : NEL) →
    NEL.unifb d (NEL.append xs ys) = (NEL.unifb d xs && NEL.unifb d ys)
  | .nil, ys => by simp [NEL.append, NEL.unifb]
  | .cons x rest, ys => by
    simp [NEL.append, NEL.unifb, NEL.unifb_append d rest ys, Bool.and_assoc]

theorem NEL.length_eq_zero_iff : (xs : NEL) → (xs.length = 0 ↔ xs = .nil)
  | .nil => by simp [NEL.length]
  | .cons x rest => by simp [NEL.length]

/-- Summary of `flatten_beat_groups` on a nonempty list of uniform trees of
depth `d + 1`: it succeeds, the result is a nonempty list of uniform trees of
depth `d`, and the leaves are permuted with the first leaf unchanged. -/
theorem flatten_beat_groups_spec (d : ℕ) (up : Bool) : (xs : NEL) →
    xs.isNilb = false → NEL.unifb (d + 1) xs = true →
    ∃ out, flatten_beat_groups xs up = some out ∧
      out.isNilb = false ∧ NEL.unifb d out = true ∧
      out.leaves.Perm xs.leaves ∧ out.leaves.head? = xs.leaves.head?
  | .nil, hnil, _ => by simp [NEL.isNilb] at hnil
  | .cons x0 xrest, _, hu => by
    obtain ⟨subs, hsubs, hmap, hnonempty, hunif⟩ :=
      toSubgroups_spec d (NEL.cons x0 xrest) hu
    -- the first sub-group and its head element
    obtain ⟨s0, subs', rfl⟩ : ∃ s0 subs', subs = s0 :: subs' := by
      cases subs with
      | nil => simp [NEL.toList] at hmap
      | cons a b => exact ⟨a, b, rfl⟩
    obtain ⟨c1, t1, rfl⟩ : ∃ c1 t1, s0 = NEL.cons c1 t1 := by
      cases hs0 : s0 with
      | nil => exact absurd (hs0 ▸ hnonempty s0 (by simp)) (by simp [NEL.isNilb])
      | cons a b => exact ⟨a, b, rfl⟩
    obtain ⟨outs1, rems1, hpf, hperm1, hunif1, hunifr1, _, _, hhead1⟩ :=
      popFirsts_spec d (NEL.cons c1 t1 :: subs') hnonempty hunif
    have hc1unif : NE.unifb d c1 = true := by
      have := hunif _ (List.mem_cons_self _ _)
      simp [NEL.unifb] at this
      exact this.1
    -- the upbeats step (trivial when the flag is off)
    have hstep2 : (concatSubs rems1).Perm
          ((if up then popUpbeats rems1 else (.nil, rems1)).1.toList ++
            concatSubs (if up then popUpbeats rems1 else (.nil, rems1)).2) ∧
        NEL.unifb d (if up then popUpbeats rems1 else (.nil, rems1)).1 = true ∧
        (∀ r ∈ (if up then popUpbeats rems1 else (.nil, rems1)).2,
          NEL.unifb d r = true) := by
      cases up with
      | true =>
        obtain ⟨a, b, c, _⟩ := popUpbeats_spec d rems1 hunifr1
        exact ⟨by simpa using a, by simpa using b, by simpa using c⟩
      | false => exact ⟨by simp [NEL.toList, NEL.unifb], by simp [NEL.unifb], by
          simpa using hunifr1⟩
    set step2 := if up then popUpbeats rems1 else ((.nil : NEL), rems1) with hstep2def
    obtain ⟨hperm2, hunif2, hunifr2⟩ := hstep2
    obtain ⟨hunif3, hperm3⟩ := whileLoop_spec d (totalLen step2.2) step2.2 le_rfl hunifr2
    -- assemble the output
    refine ⟨NEL.append outs1 (NEL.append step2.1 (whileLoop (totalLen step2.2) step2.2)),
      ?_, ?_, ?_, ?_, ?_⟩
    · simp [flatten_beat_groups, hsubs, hpf, ← hstep2def]
    · -- nonempty: `outs1` starts with `c1`
      have : outs1.toList.head? = some c1 := by
        simpa [concatSubs, NEL.toList] using hhead1
      cases outs1 with
      | nil => simp [NEL.toList] at this
      | cons a b => simp [NEL.append, NEL.isNilb]
    · simp [NEL.unifb_append, hunif1, hunif2, hunif3]
    · -- leaves are a permutation
      have helem : ((NEL.append outs1 (NEL.append step2.1
          (whileLoop (totalLen step2.2) step2.2))).toList).Perm
            (concatSubs (NEL.cons c1 t1 :: subs')) := by
        calc (NEL.append outs1 (NEL.append step2.1
              (whileLoop (totalLen step2.2) step2.2))).toList
            = outs1.toList ++ (step2.1.toList ++
                (whileLoop (totalLen step2.2) step2.2).toList) := by
              simp [NEL.toList_append]
          _ ~ outs1.toList ++ (step2.1.toList ++ concatSubs step2.2) :=
              (hperm3.append_left _).append_left _
          _ ~ outs1.toList ++ concatSubs rems1 := (hperm2.symm).append_left _
          _ ~ concatSubs (NEL.cons c1 t1 :: subs') := hperm1.symm
      have := leavesOfList_perm_of_perm helem
      rw [NEL.leaves_eq_leavesOfList, NEL.leaves_eq_leavesOfList (NEL.cons x0 xrest),
        hmap, leaves_toList_map_list]
      exact this
    · -- the first leaf is unchanged
      obtain ⟨a, as, hca⟩ := List.exists_cons_of_ne_nil
        (NE.leaves_ne_nil_of_unifb d c1 hc1unif)
      obtain ⟨outs1', houts1⟩ : ∃ outs1', outs1 = NEL.cons c1 outs1' := by
        have : outs1.toList.head? = some c1 := by
          simpa [concatSubs, NEL.toList] using hhead1
        cases outs1 with
        | nil => simp [NEL.toList] at this
        | cons u v =>
          simp [NEL.toList] at this
          exact ⟨v, by rw [this]⟩
      rw [houts1, NEL.leaves_eq_leavesOfList, NEL.leaves_eq_leavesOfList
        (NEL.cons x0 xrest), hmap, leaves_toList_map_list]
      simp [NEL.toList_append, NEL.toList, leavesOfList, concatSubs,
        leavesOfList_append, hca, NEL.leaves_eq_leavesOfList t1]

/-- Depth of a nonempty list of uniform trees of depth `d`. -/
theorem depthNEL_of_unifb (d : ℕ) : (xs : NEL) → xs.isNilb = false →
    NEL.unifb d xs = true → depthNEL xs = d + 1
  | .nil, hnil, _ => by simp [NEL.isNilb] at hnil
  | .cons x rest, _, hu => by
    simp [NEL.unifb] at hu
    have hx := NE.depth_of_unifb d x hu.1
    have hrest := NEL.maxDepth_le_of_unifb d rest hu.2
    simp [depthNEL, NE.depth, hx, NEL.maxDepth]
    omega

/-- The flattening loop of `get_backward_beat_priorities`, for a nonempty
list of uniform trees of depth `d` and fuel at least `d`: it yields a
nonempty flat list of ints with permuted leaves and unchanged first leaf. -/
theorem bbpLoop_spec (up : Bool) : (d : ℕ) → (xs : NEL) → xs.isNilb = false →
    NEL.unifb d xs = true → (fuel : ℕ) → d ≤ fuel →
    ∃ res, bbpLoop up fuel xs = some res ∧ res.isNilb = false ∧
      NEL.unifb 0 res = true ∧ res.leaves.Perm xs.leaves ∧
      res.leaves.head? = xs.leaves.head?
  | 0, xs, hnil, hu, fuel, _ => by
    have hd : depthNEL xs = 1 := depthNEL_of_unifb 0 xs hnil hu
    cases fuel with
    | zero => exact ⟨xs, by simp [bbpLoop, hd, hnil, hu]⟩
    | succ f => exact ⟨xs, by simp [bbpLoop, hd, hnil, hu]⟩
  | d + 1, xs, hnil, hu, fuel, hfuel => by
    have hd : depthNEL xs = d + 2 := depthNEL_of_unifb (d + 1) xs hnil hu
    obtain ⟨f, rfl⟩ : ∃ f, fuel = f + 1 := ⟨fuel - 1, by omega⟩
    obtain ⟨out, hout, honil, hounif, hoperm, hohead⟩ :=
      flatten_beat_groups_spec d up xs hnil hu
    obtain ⟨res, hres, h1, h2, h3, h4⟩ :=
      bbpLoop_spec up d out honil hounif f (by omega)
    refine ⟨res, ?_, h1, h2, h3.trans hoperm, h4.trans hohead⟩
    simp [bbpLoop, hd, hout, hres]

/-!
## The nested beat groups of a well-formed metric layer
-/

theorem NEL.isNilb_incr (k : ℕ) : (xs : NEL) → (NEL.incr k xs).isNilb = xs.isNilb
  | .nil => by simp [NEL.incr]
  | .cons x rest => by simp [NEL.incr, NEL.isNilb]

theorem rangeNEL_isNilb (n : ℕ) (h : 1 ≤ n) : (rangeNEL n).isNilb = false := by
  cases n with
  | zero => omega
  | succ m =>
    cases hm : rangeNEL m with
    | nil => simp [rangeNEL, hm, NEL.append, NEL.isNilb]
    | cons a b => simp [rangeNEL, hm, NEL.append, NEL.isNilb]

theorem wfEach_of_wfML : (gs : MLGL) → wfML gs = true →
    wfEach gs = true ∧ gs.isNilb = false
  | .nil, h => by simp [wfML] at h
  | .cons g rest, h => by
    simp [wfML] at h
    simp [wfEach, MLGL.isNilb, h.1, h.2]

theorem NE.leaves_ne_nil_of_goodb : (x : NE) → x.goodb = true → x.leaves ≠ []
  | .int n, _ => by simp [NE.leaves]
  | .list .nil, h => by simp [NE.goodb, NEL.isNilb] at h
  | .list (.cons a b), h => by
    simp [NE.goodb, NEL.isNilb, NEL.goodb] at h
    have := NE.leaves_ne_nil_of_goodb a h.1
    simp [NE.leaves, NEL.leaves, this]

theorem NEL.append_singleton_isNilb (xs : NEL) (y : NE) :
    (NEL.append xs (.cons y .nil)).isNilb = false := by
  cases xs with
  | nil => simp [NEL.append, NEL.isNilb]
  | cons a b => simp [NEL.append, NEL.isNilb]

mutual
/-- The nested beat groups of a list of well-formed groups: the leaves read
`0, 1, ..., N-1` in order (where `N` is the beat counter returned, equal to
the total beat count), no empty list occurs, and the list is empty only for
an empty groups list. -/
theorem nestedBeatGroups_spec : (gs : MLGL) → wfEach gs = true →
    (nestedBeatGroups gs).1.leaves = List.range (nestedBeatGroups gs).2 ∧
      (nestedBeatGroups gs).2 = beatCount gs ∧
      (nestedBeatGroups gs).1.goodb = true ∧
      (nestedBeatGroups gs).1.isNilb = gs.isNilb
  | .nil, _ => by
    simp [nestedBeatGroups, NEL.leaves, beatCount, NEL.goodb, NEL.isNilb, MLGL.isNilb]
  | .cons g rest, h => by
    simp [wfEach] at h
    obtain ⟨ih1, ih2, ih3, _⟩ := nestedBeatGroups_spec rest h.2
    obtain ⟨hg1, hg2⟩ := beatGroupOf_spec g h.1 (nestedBeatGroups rest).2
    have hcount : (beatGroupOf g (nestedBeatGroups rest).2).count = beatCountG g := by
      rw [NE.count_eq_leaves_length, hg1]
      simp
    refine ⟨?_, ?_, ?_, ?_⟩
    · simp only [nestedBeatGroups, NEL.leaves_append, ih1, NEL.leaves, hg1, hcount,
        List.append_nil]
      rw [List.range_add]
      simp [Nat.add_comm]
    · simp only [nestedBeatGroups, hcount, beatCount]
      omega
    · simp [nestedBeatGroups, NEL.goodb_append, ih3, NEL.goodb, hg2]
    · simp [nestedBeatGroups, NEL.append_singleton_isNilb, MLGL.isNilb]

/-- The beat group of one well-formed group at counter `beat`: its leaves
are `beat, ..., beat + count - 1` in order and it contains no empty list. -/
theorem beatGroupOf_spec : (g : MLG) → wfG g = true → (beat : ℕ) →
    (beatGroupOf g beat).leaves = (List.range (beatCountG g)).map (· + beat) ∧
      (beatGroupOf g beat).goodb = true
  | .int n, h, beat => by
    simp [wfG] at h
    refine ⟨?_, ?_⟩
    · simp [beatGroupOf, NE.leaves, NEL.incr_leaves, rangeNEL_leaves, beatCountG]
    · simp [beatGroupOf, NE.goodb, NEL.isNilb_incr, rangeNEL_isNilb n h,
        NEL.incr_goodb, rangeNEL_goodb]
  | .layer gs, h, beat => by
    simp only [wfG] at h
    obtain ⟨heach, hnil⟩ := wfEach_of_wfML gs h
    obtain ⟨ih1, ih2, ih3, ih4⟩ := nestedBeatGroups_spec gs heach
    refine ⟨?_, ?_⟩
    · simp [beatGroupOf, NE.leaves, NEL.incr_leaves, ih1, ih2, beatCountG]
    · simp [beatGroupOf, NE.goodb, NEL.isNilb_incr, ih4, hnil, NEL.incr_goodb, ih3]
end

/-- Summary of `get_backward_beat_priorities` for a well-formed metric
layer: it returns a nonempty flat list of ints whose leaves are a
permutation of `0 .. N-1` and whose first leaf is 0. -/
theorem get_backward_beat_priorities_spec (gs : MLGL) (up : Bool)
    (h : wfML gs = true) :
    ∃ res, get_backward_beat_priorities gs up = some res ∧
      res.isNilb = false ∧ NEL.unifb 0 res = true ∧
      res.leaves.Perm (List.range (beatCount gs)) ∧
      res.leaves.head? = some 0 := by
  obtain ⟨heach, hnil⟩ := wfEach_of_wfML gs h
  obtain ⟨h1, h2, h3, h4⟩ := nestedBeatGroups_spec gs heach
  have hbc1 : 1 ≤ beatCount gs := by
    rcases Nat.eq_zero_or_pos (beatCount gs) with h0 | h1'
    · exfalso
      have : (nestedBeatGroups gs).1.leaves = [] := by simp [h1, h2, h0]
      -- an empty leaves list contradicts nonemptiness and goodness:
      -- a good nonempty list has a nonempty first leaf set only when...
      -- we derive the contradiction from `isNilb` and `goodb` below
      cases hng : (nestedBeatGroups gs).1 with
      | nil => rw [hng] at h4; simp [NEL.isNilb] at h4; rw [h4] at hnil; simp at hnil
      | cons a b =>
        rw [hng] at this h3
        simp [NEL.leaves] at this
        simp [NEL.goodb] at h3
        exact NE.leaves_ne_nil_of_goodb a h3.1 this.1
    · exact h1'
  obtain ⟨hn1, hn2, hn3⟩ := normalize_depth_spec (nestedBeatGroups gs).1 h3
  have hnnil : (normalize_depth (nestedBeatGroups gs).1).isNilb = false := by
    cases hng : normalize_depth (nestedBeatGroups gs).1 with
    | nil =>
      exfalso
      rw [hng] at hn3
      simp [NEL.length] at hn3
      cases hng2 : (nestedBeatGroups gs).1 with
      | nil => rw [hng2] at h4; simp [NEL.isNilb] at h4; rw [h4] at hnil; simp at hnil
      | cons a b => rw [hng2] at hn3; simp [NEL.length] at hn3; omega
    | cons a b => simp [NEL.isNilb]
  have hfuel : NEL.maxDepth (nestedBeatGroups gs).1 ≤
      depthNEL (normalize_depth (nestedBeatGroups gs).1) := by
    rw [depthNEL_of_unifb _ _ hnnil hn2]
    omega
  obtain ⟨res, hres, hr1, hr2, hr3, hr4⟩ := bbpLoop_spec up
    (NEL.maxDepth (nestedBeatGroups gs).1)
    (normalize_depth (nestedBeatGroups gs).1) hnnil hn2 _ hfuel
  refine ⟨res, ?_, hr1, hr2, ?_, ?_⟩
  · simpa [get_backward_beat_priorities] using hres
  · rw [hn1, h1, h2] at hr3
    exact hr3
  · rw [hn1, h1, h2] at hr4
    rw [hr4]
    obtain ⟨k, hk⟩ : ∃ k, beatCount gs = k + 1 := ⟨beatCount gs - 1, by omega⟩
    rw [hk, List.range_succ_eq_map]
    simp

/-!
## The indispensability array of a well-formed metric layer
-/

theorem toInts_of_unifb0 : (xs : NEL) → NEL.unifb 0 xs = true →
    toInts xs = some xs.leaves
  | .nil, _ => by simp [toInts, NEL.leaves]
  | .cons (.int n) rest, h => by
    simp [NEL.unifb] at h
    simp [toInts, NEL.leaves, NE.leaves, toInts_of_unifb0 rest h.2]
  | .cons (.list _) rest, h => by simp [NEL.unifb, NE.unifb] at h

theorem pyIndex_get : (l : List ℕ) → (i j : ℕ) → pyIndex l i = some j →
    l[j]? = some i
  | [], i, j, h => by simp [pyIndex] at h
  | x :: rest, i, j, h => by
    by_cases hx : x = i
    · simp [pyIndex, hx] at h
      simp [← h, hx]
    · simp [pyIndex, hx] at h
      obtain ⟨j', hj', rfl⟩ := h
      simpa using pyIndex_get rest i j' hj'

theorem pyIndex_isSome_of_mem : (l : List ℕ) → (i : ℕ) → i ∈ l →
    ∃ j, pyIndex l i = some j
  | [], i, h => by simp at h
  | x :: rest, i, h => by
    by_cases hx : x = i
    · exact ⟨0, by simp [pyIndex, hx]⟩
    · rcases List.mem_cons.mp h with rfl | h
      · exact absurd rfl hx
      · obtain ⟨j, hj⟩ := pyIndex_isSome_of_mem rest i h
        exact ⟨j + 1, by simp [pyIndex, hx, hj]⟩

theorem pyIndex_head (l : List ℕ) (i : ℕ) (h : l.head? = some i) :
    pyIndex l i = some 0 := by
  cases l with
  | nil => simp at h
  | cons x rest =>
    simp at h
    simp [pyIndex, h]

theorem pyIndex_lt_length (l : List ℕ) (i j : ℕ) (h : pyIndex l i = some j) :
    j < l.length := by
  have := pyIndex_get l i j h
  exact (List.getElem?_eq_some_iff.mp this).1

/-- Closed form of the backward-array comprehension when every rank is
present. -/
theorem backwardIndArray_eq_map (l : List ℕ) : (is : List ℕ) →
    (∀ i ∈ is, i ∈ l) →
    backwardIndArray l is
      = some (is.map fun i => l.length - 1 - (pyIndex l i).getD 0)
  | [], _ => by simp [backwardIndArray]
  | i :: is, h => by
    obtain ⟨j, hj⟩ := pyIndex_isSome_of_mem l i (h i (by simp))
    have hrest := backwardIndArray_eq_map l is (fun i' hi' => h i' (by simp [hi']))
    simp [backwardIndArray, hj, hrest]

/-- A duplicate-free list of naturals below `N` of length `N` is a
permutation of `range N`. -/
theorem perm_range_of_nodup_lt_length {l : List ℕ} {N : ℕ} (hnd : l.Nodup)
    (hlt : ∀ x ∈ l, x < N) (hlen : l.length = N) : l.Perm (List.range N) := by
  rw [← Multiset.coe_eq_coe]
  apply Multiset.eq_of_le_of_card_le
  · rw [Multiset.le_iff_count]
    intro a
    by_cases ha : a ∈ l
    · have h1 : l.count a = 1 := List.count_eq_one_of_mem hnd ha
      have h2 : (List.range N).count a = 1 :=
        List.count_eq_one_of_mem (List.nodup_range N)
          (List.mem_range.mpr (hlt a ha))
      simp [h1, h2]
    · simp [List.count_eq_zero_of_not_mem ha]
  · simp [hlen]

/-- The backward indispensability array built from a flat priority list that
is a permutation of `0 .. N-1` starting with 0: the array is a permutation
of `0 .. N-1` and starts with `N - 1`. -/
theorem backwardIndArray_spec (l : List ℕ) (N : ℕ) (hN : 1 ≤ N)
    (hperm : l.Perm (List.range N)) (hhead : l.head? = some 0) :
    ∃ out, backwardIndArray l (List.range l.length) = some out ∧
      out.Perm (List.range N) ∧ out.head? = some (N - 1) ∧ out.length = N := by
  have hlen : l.length = N := by simpa using hperm.length_eq
  have hmem : ∀ i, i ∈ List.range l.length → i ∈ l := by
    intro i hi
    rw [hlen] at hi
    exact (hperm.mem_iff).mpr hi
  obtain hmap := backwardIndArray_eq_map l (List.range l.length) hmem
  set f : ℕ → ℕ := fun i => l.length - 1 - (pyIndex l i).getD 0 with hf
  refine ⟨(List.range l.length).map f, hmap, ?_, ?_, ?_⟩
  · -- permutation: the map is injective on members of `l`, bounded, and of
    -- full length
    apply perm_range_of_nodup_lt_length
    · apply List.Nodup.map_on ?_ (List.nodup_range _)
      intro x hx y hy hfxy
      obtain ⟨jx, hjx⟩ := pyIndex_isSome_of_mem l x (hmem x hx)
      obtain ⟨jy, hjy⟩ := pyIndex_isSome_of_mem l y (hmem y hy)
      have hjx' := pyIndex_lt_length l x jx hjx
      have hjy' := pyIndex_lt_length l y jy hjy
      rw [hf] at hfxy
      simp [hjx, hjy] at hfxy
      have : jx = jy := by omega
      have := (pyIndex_get l x jx hjx).symm.trans (this ▸ pyIndex_get l y jy hjy)
      simpa using this
    · intro v hv
      obtain ⟨i, hi, rfl⟩ := List.mem_map.mp hv
      rw [hf]
      simp only []
      omega
    · simp [hlen]
  · -- the first entry
    obtain ⟨k, hk⟩ : ∃ k, l.length = k + 1 := ⟨l.length - 1, by omega⟩
    rw [hk, List.range_succ_eq_map]
    simp [hf, pyIndex_head l 0 hhead, hk, hlen]
    omega
  · simp [hlen]

theorem pyRotate1_perm (l : List ℕ) : (pyRotate1 l).Perm l := by
  calc pyRotate1 l = l.drop 1 ++ l.take 1 := rfl
    _ ~ l.take 1 ++ l.drop 1 := List.perm_append_comm
    _ = l := List.take_append_drop 1 l

/-- The master theorem: for a well-formed metric layer the indispensability
array is returned, is a permutation of `0 .. N-1` for `N` the total beat
count, and begins with the maximal entry `N - 1`. -/
theorem get_indispensibility_array_spec (gs : MLGL) (up : Bool)
    (h : wfML gs = true) :
    ∃ arr, get_indispensibility_array gs up = some arr ∧
      arr.Perm (List.range (beatCount gs)) ∧
      arr.head? = some (beatCount gs - 1) ∧
      arr.length = beatCount gs := by
  obtain ⟨res, hres, hrnil, hrunif, hrperm, hrhead⟩ :=
    get_backward_beat_priorities_spec gs up h
  have hN : 1 ≤ beatCount gs := by
    by_contra hc
    have h0 : beatCount gs = 0 := by omega
    rw [h0] at hrperm
    have := hrperm.length_eq
    simp at this
    rw [this] at hrhead
    simp at hrhead
  obtain ⟨out, hout, hoperm, hohead, holen⟩ :=
    backwardIndArray_spec res.leaves (beatCount gs) hN hrperm hrhead
  refine ⟨(pyRotate1 out).reverse, ?_, ?_, ?_, ?_⟩
  · simp [get_indispensibility_array, hres, toInts_of_unifb0 res hrunif, hout]
  · exact ((List.reverse_perm _).trans (pyRotate1_perm out)).trans hoperm
  · -- the head of the final array is the old head, sent to the back by the
    -- rotation and to the front by the reversal
    obtain ⟨o0, orest, rfl⟩ := List.exists_cons_of_ne_nil
      (by simp [← List.length_pos_iff_ne_nil, holen]; omega :
        out ≠ [])
    simp at hohead
    simp [List.head?_reverse, pyRotate1, hohead]
  · simp [holen, pyRotate1]; omega

/-- The normalized array, whenever it is returned at all, begins with
exactly 1. -/
theorem get_indispensibility_array_normalized_head (gs : MLGL) (up : Bool)
    (h : wfML gs = true) (lN : List ℚ)
    (hsome : get_indispensibility_array_normalized gs up = some lN) :
    lN.head? = some 1 := by
  obtain ⟨arr, harr, hperm, hhead, hlen⟩ := get_indispensibility_array_spec gs up h
  rw [get_indispensibility_array_normalized] at hsome
  rw [harr] at hsome
  simp at hsome
  by_cases hm : pyMaxNat arr = 0
  · simp [hm] at hsome
  · simp [hm] at hsome
    obtain ⟨a0, arest, rfl⟩ := List.exists_cons_of_ne_nil
      (fun hemp => by rw [hemp] at hhead; simp at hhead : arr ≠ [])
    simp at hhead
    -- the maximum of a permutation of `range N` that starts with `N - 1`
    -- is its first entry
    have hbound : ∀ x ∈ a0 :: arest, x ≤ a0 := by
      intro x hx
      have := (hperm.mem_iff).mp hx
      rw [List.mem_range] at this
      omega
    have hmax : pyMaxNat (a0 :: arest) = a0 := by
      have hle : ∀ (l : List ℕ) (a : ℕ), l.foldl max a = max a (l.foldl max 0) := by
        intro l
        induction l with
        | nil => intro a; simp
        | cons x rest ih =>
          intro a
          simp only [List.foldl_cons]
          rw [ih (max a x), ih (max 0 x)]
          omega
      have : ∀ (l : List ℕ) (a : ℕ), (∀ x ∈ l, x ≤ a) → l.foldl max a = a := by
        intro l
        induction l with
        | nil => intro a _; simp
        | cons x rest ih =>
          intro a hb
          simp only [List.foldl_cons]
          have hxa : x ≤ a := hb x (by simp)
          rw [max_eq_left hxa]
          exact ih a (fun y hy => hb y (by simp [hy]))
      rw [pyMaxNat]
      simp only [List.foldl_cons]
      rw [hle arest (max 0 a0)]
      have := this arest a0 (fun y hy => hbound y (by simp [hy]))
      rw [hle arest a0] at this
      omega
    rw [← hsome]
    rw [hmax]
    have ha0 : (a0 : ℚ) ≠ 0 := by
      rw [hmax] at hm
      exact_mod_cast hm
    simp [div_self ha0]

/-!
## Preservation of well-formedness and beat count by the layer algebra
-/

theorem wfML_eq : (gs : MLGL) → wfML gs = (wfEach gs && !gs.isNilb)
  | .nil => by simp [wfML, wfEach, MLGL.isNilb]
  | .cons g rest => by simp [wfML, wfEach, MLGL.isNilb]

mutual
theorem removeRedundant_wf : (gs : MLGL) → wfML gs = true →
    wfML (removeRedundant gs) = true ∧
      beatCount (removeRedundant gs) = beatCount gs
  | .nil, h => by simp [wfML] at h
  | .cons (.layer gs) .nil, h => by
    simp [wfML, wfG, wfEach] at h
    have ih := removeRedundant_wf gs h
    exact ⟨by simpa [removeRedundant] using ih.1,
      by simpa [removeRedundant, beatCount, beatCountG] using ih.2⟩
  | .cons (.int n) rest, h => by
    simp [wfML] at h
    have ih := rrEach_wf rest h.2
    refine ⟨?_, ?_⟩
    · simp [removeRedundant, wfML, rrGroup, wfG] at h ⊢
      exact ⟨h.1, ih.1⟩
    · simp [removeRedundant, beatCount, rrGroup, beatCountG, ih.2.1]
  | .cons (.layer gs) (.cons g2 rest2), h => by
    simp [wfML, wfEach] at h
    have ihg := rrGroup_wf (.layer gs) (by simpa [wfG] using h.1)
    have ih := rrEach_wf (.cons g2 rest2) (by simp [wfEach, h.2.1, h.2.2])
    refine ⟨?_, ?_⟩
    · have ih1 := ih.1
      simp [rrEach, wfEach] at ih1
      simp [removeRedundant, wfML, wfEach, ihg.1, ih1.1, ih1.2]
    · have ih21 := ih.2.1
      simp [rrEach, beatCount] at ih21
      simp [removeRedundant, beatCount, ihg.2]
      omega

theorem rrEach_wf : (gs : MLGL) → wfEach gs = true →
    wfEach (rrEach gs) = true ∧ beatCount (rrEach gs) = beatCount gs ∧
      (rrEach gs).isNilb = gs.isNilb
  | .nil, _ => by simp [rrEach, wfEach, beatCount, MLGL.isNilb]
  | .cons g rest, h => by
    simp [wfEach] at h
    have ihg := rrGroup_wf g h.1
    have ih := rrEach_wf rest h.2
    refine ⟨?_, ?_, ?_⟩
    · simp [rrEach, wfEach, ihg.1, ih.1]
    · simp [rrEach, beatCount, ihg.2, ih.2.1]
    · simp [rrEach, MLGL.isNilb]

theorem rrGroup_wf : (g : MLG) → wfG g = true →
    wfG (rrGroup g) = true ∧ beatCountG (rrGroup g) = beatCountG g
  | .int n, h => ⟨by simpa [rrGroup] using h, by simp [rrGroup]⟩
  | .layer gs, h => by
    simp [wfG] at h
    have ih := removeRedundant_wf gs h
    cases hr : removeRedundant gs with
    | nil => rw [hr] at ih; simp [wfML] at ih
    | cons g' rest' =>
      rw [hr] at ih
      cases g' with
      | int n =>
        cases rest' with
        | nil =>
          simp [wfML, wfG, wfEach, beatCount, beatCountG] at ih
          obtain ⟨ih1, ih2⟩ := ih
          exact ⟨by simp [rrGroup, hr, wfG, ih1],
            by simp [rrGroup, hr, beatCountG, ih2]⟩
        | cons g2 rest2 =>
          refine ⟨?_, ?_⟩
          · simp [rrGroup, hr, wfG]
            exact ih.1
          · simp [rrGroup, hr, beatCountG]
            exact ih.2
      | layer l2 =>
        refine ⟨?_, ?_⟩
        · simp [rrGroup, hr, wfG]
          exact ih.1
        · simp [rrGroup, hr, beatCountG]
          exact ih.2
end

theorem twosList_mem : (n : ℕ) → ∀ x ∈ twosList n, x = 2
  | 0 => by simp [twosList]
  | 1 => by simp [twosList]
  | n + 2 => by
    intro x hx
    simp [twosList] at hx
    rcases hx with rfl | hx
    · rfl
    · exact twosList_mem n x hx

theorem twosList_sum : (n : ℕ) → n % 2 = 0 → (twosList n).sum = n
  | 0, _ => by simp [twosList]
  | 1, h => by omega
  | n + 2, h => by
    have := twosList_sum n (by omega)
    simp [twosList, this]
    omega

theorem twosList_ne_nil : (n : ℕ) → 1 ≤ n → twosList n ≠ []
  | 0, h => by omega
  | 1, _ => by simp [twosList]
  | n + 2, _ => by simp [twosList]

theorem decompose_spec (n : ℕ) (h : 4 ≤ n) :
    (∀ x ∈ decompose_to_twos_and_threes n, x = 2 ∨ x = 3) ∧
      (decompose_to_twos_and_threes n).sum = n ∧
      decompose_to_twos_and_threes n ≠ [] := by
  rw [decompose_to_twos_and_threes]
  by_cases hodd : n % 2 = 1
  · have hsum := twosList_sum (n - 3) (by omega)
    refine ⟨?_, ?_, ?_⟩
    · intro x hx
      simp [hodd] at hx
      rcases hx with hx | rfl
      · exact Or.inl (twosList_mem _ x hx)
      · exact Or.inr rfl
    · simp [hodd, List.sum_reverse, hsum]
      omega
    · simp [hodd]
  · have hsum := twosList_sum n (by omega)
    refine ⟨?_, ?_, ?_⟩
    · intro x hx
      simp [hodd] at hx
      exact Or.inl (twosList_mem _ x hx)
    · simp [hodd, List.sum_reverse, hsum]
    · simp [hodd, twosList_ne_nil n (by omega)]

theorem ofList_map_int_wf (L : List ℕ) (h1 : ∀ x ∈ L, 1 ≤ x) (h2 : L ≠ []) :
    wfML (MLGL.ofList (L.map MLG.int)) = true ∧
      beatCount (MLGL.ofList (L.map MLG.int)) = L.sum := by
  induction L with
  | nil => exact absurd rfl h2
  | cons x rest ih =>
    cases rest with
    | nil =>
      simp [MLGL.ofList, wfML, wfG, wfEach, beatCount, beatCountG]
      exact h1 x (by simp)
    | cons y rest2 =>
      have ih2 := ih (fun z hz => h1 z (by simp at hz ⊢; tauto)) (by simp)
      refine ⟨?_, ?_⟩
      · have hx := h1 x (by simp)
        simp [MLGL.ofList, wfML, wfG, hx]
        have := ih2.1
        simp [MLGL.ofList, wfML] at this
        simp [wfEach, this.1, this.2]
      · have := ih2.2
        simp [MLGL.ofList, beatCount, beatCountG] at this ⊢
        omega

mutual
theorem break_up_wf : (gs : MLGL) → wfEach gs = true →
    wfEach (break_up_large_numbers gs) = true ∧
      beatCount (break_up_large_numbers gs) = beatCount gs ∧
      (break_up_large_numbers gs).isNilb = gs.isNilb
  | .nil, _ => by simp [break_up_large_numbers, wfEach, beatCount, MLGL.isNilb]
  | .cons g rest, h => by
    simp [wfEach] at h
    have ihg := breakGroup_wf g h.1
    have ih := break_up_wf rest h.2
    refine ⟨?_, ?_, ?_⟩
    · simp [break_up_large_numbers, wfEach, ihg.1, ih.1]
    · simp [break_up_large_numbers, beatCount, ihg.2, ih.2.1]
    · simp [break_up_large_numbers, MLGL.isNilb]

theorem breakGroup_wf : (g : MLG) → wfG g = true →
    wfG (breakGroup g) = true ∧ beatCountG (breakGroup g) = beatCountG g
  | .int n, h => by
    by_cases hn : 3 < n
    · obtain ⟨hmem, hsum, hne⟩ := decompose_spec n (by omega)
      obtain ⟨hwf, hbc⟩ := ofList_map_int_wf (decompose_to_twos_and_threes n)
        (fun x hx => by rcases hmem x hx with rfl | rfl <;> omega) hne
      have ih := removeRedundant_wf _ hwf
      refine ⟨?_, ?_⟩
      · simp [breakGroup, hn, wfG, ih.1]
      · simp [breakGroup, hn, beatCountG, ih.2, hbc, hsum]
    · exact ⟨by simpa [breakGroup, hn] using h, by simp [breakGroup, hn]⟩
  | .layer gs, h => by
    simp [wfG] at h
    rw [wfML_eq] at h
    simp at h
    have ih := break_up_wf gs h.1
    refine ⟨?_, ?_⟩
    · simp [breakGroup, wfG, wfML_eq, ih.1, ih.2.2, h.2]
    · simp [breakGroup, beatCountG, ih.2.1]
end

/-- The `MetricLayer` constructor preserves well-formedness and beat count. -/
theorem mkMetricLayer_wf (gs : MLGL) (b : Bool) (h : wfML gs = true) :
    wfML (mkMetricLayer gs b) = true ∧
      beatCount (mkMetricLayer gs b) = beatCount gs := by
  cases b with
  | false => simpa [mkMetricLayer] using removeRedundant_wf gs h
  | true =>
    rw [wfML_eq] at h
    simp at h
    have hb := break_up_wf gs h.1
    have hwf : wfML (break_up_large_numbers gs) = true := by
      rw [wfML_eq]
      simp [hb.1, hb.2.2, h.2]
    have := removeRedundant_wf _ hwf
    exact ⟨by simpa [mkMetricLayer] using this.1,
      by simpa [mkMetricLayer, hb.2.1] using this.2⟩

theorem replicateLayer_wf (g : ℕ) (other : MLGL) (h : wfML other = true) :
    wfEach (MLGL.replicateLayer g other) = true ∧
      beatCount (MLGL.replicateLayer g other) = g * beatCount other ∧
      (MLGL.replicateLayer g other).isNilb = decide (g = 0) := by
  induction g with
  | zero => simp [MLGL.replicateLayer, wfEach, beatCount, MLGL.isNilb]
  | succ k ih =>
    refine ⟨?_, ?_, ?_⟩
    · simp [MLGL.replicateLayer, wfEach, wfG, h, ih.1]
    · simp [MLGL.replicateLayer, beatCount, beatCountG, ih.2.1]
      ring
    · simp [MLGL.replicateLayer, MLGL.isNilb]

mutual
theorem mulGroups_wf : (a : MLGL) → (other : MLGL) → wfEach a = true →
    wfML other = true →
    wfEach (mulGroups a other) = true ∧
      beatCount (mulGroups a other) = beatCount a * beatCount other ∧
      (mulGroups a other).isNilb = a.isNilb
  | .nil, other, _, _ => by
    simp [mulGroups, wfEach, beatCount, MLGL.isNilb]
  | .cons g rest, other, ha, ho => by
    simp [wfEach] at ha
    have ihg := mulGroup_wf g other ha.1 ho
    have ih := mulGroups_wf rest other ha.2 ho
    refine ⟨?_, ?_, ?_⟩
    · simp [mulGroups, wfEach, wfG, ihg.1, ih.1]
    · simp [mulGroups, beatCount, beatCountG, ihg.2, ih.2.1]
      ring
    · simp [mulGroups, MLGL.isNilb]

theorem mulGroup_wf : (g : MLG) → (other : MLGL) → wfG g = true →
    wfML other = true →
    wfML (mulGroup g other) = true ∧
      beatCount (mulGroup g other) = beatCountG g * beatCount other
  | .int n, other, hg, ho => by
    simp [wfG] at hg
    by_cases h1 : n = 1
    · simp [mulGroup, h1, ho, beatCountG]
    · have hrep := replicateLayer_wf n other ho
      have hwfrep : wfML (MLGL.replicateLayer n other) = true := by
        rw [wfML_eq]
        simp [hrep.1, hrep.2.2]
        omega
      have ih := removeRedundant_wf _ hwfrep
      refine ⟨?_, ?_⟩
      · simp [mulGroup, h1, ih.1]
      · simp [mulGroup, h1, ih.2, hrep.2.1, beatCountG]
  | .layer m, other, hg, ho => by
    simp [wfG] at hg
    rw [wfML_eq] at hg
    simp at hg
    have hmg := mulGroups_wf m other hg.1 ho
    have hwf : wfML (mulGroups m other) = true := by
      rw [wfML_eq]
      simp [hmg.1, hmg.2.2, hg.2]
    have ih := removeRedundant_wf _ hwf
    refine ⟨?_, ?_⟩
    · simp [mulGroup, ih.1]
    · simp [mulGroup, ih.2, hmg.2.1, beatCountG]
end

theorem mulML_wf (a other : MLGL) (ha : wfML a = true) (ho : wfML other = true) :
    wfML (mulML a other) = true ∧
      beatCount (mulML a other) = beatCount a * beatCount other := by
  rw [wfML_eq] at ha
  simp at ha
  have hmg := mulGroups_wf a other ha.1 ho
  have hwf : wfML (mulGroups a other) = true := by
    rw [wfML_eq]
    simp [hmg.1, hmg.2.2, ha.2]
  have ih := removeRedundant_wf _ hwf
  exact ⟨by simpa [mulML] using ih.1, by simpa [mulML, hmg.2.1] using ih.2⟩

mutual
/-- Python `to_metric_layer` of a valid expression yields a well-formed metric
layer whose beat count is the count denoted by the expression. -/
theorem toML_wf : (g : MAG) → g.valid = true → (b : Bool) →
    wfML (g.to_metric_layer b) = true ∧
      beatCount (g.to_metric_layer b) = g.beats
  | .num n, h, b => by
    simp [MAG.valid] at h
    have := mkMetricLayer_wf (.cons (.int n) .nil) b
      (by simp [wfML, wfG, wfEach, h])
    exact ⟨by simpa [MAG.to_metric_layer] using this.1,
      by simpa [MAG.to_metric_layer, beatCount, beatCountG, MAG.beats] using this.2⟩
  | .plus .nil, h, b => by simp [MAG.valid] at h
  | .plus (.cons e rest), h, b => by
    simp [MAG.valid] at h
    have he := toML_wf e h.1 b
    have hrest := layersOf_wf rest h.2 b
    have hwf : wfML (layersOf b (.cons e rest)) = true := by
      simp [layersOf, wfML, wfG, he.1, hrest.1]
    have hmk := mkMetricLayer_wf _ b hwf
    refine ⟨by simpa [MAG.to_metric_layer] using hmk.1, ?_⟩
    have : beatCount (layersOf b (.cons e rest))
        = MAG.beats (.plus (.cons e rest)) := by
      simp [layersOf, beatCount, beatCountG, he.2, hrest.2, MAG.beats,
        MAGL.sumBeats]
    simpa [MAG.to_metric_layer, this] using hmk.2
  | .times .nil, h, b => by simp [MAG.valid] at h
  | .times (.cons e rest), h, b => by
    simp [MAG.valid] at h
    have he := toML_wf e h.1 b
    have ih := timesFold_wf rest h.2 b (e.to_metric_layer b) he.1
    exact ⟨by simpa [MAG.to_metric_layer, timesStart] using ih.1,
      by simpa [MAG.to_metric_layer, timesStart, MAG.beats, MAGL.prodBeats,
        he.2] using ih.2⟩

/-- The groups of a `"+"` node are well-formed with the summed beat count. -/
theorem layersOf_wf : (es : MAGL) → MAGL.valid es = true → (b : Bool) →
    wfEach (layersOf b es) = true ∧
      beatCount (layersOf b es) = MAGL.sumBeats es
  | .nil, _, b => by simp [layersOf, wfEach, beatCount, MAGL.sumBeats]
  | .cons e rest, h, b => by
    simp [MAGL.valid] at h
    have he := toML_wf e h.1 b
    have ih := layersOf_wf rest h.2 b
    exact ⟨by simp [layersOf, wfEach, wfG, he.1, ih.1],
      by simp [layersOf, beatCount, beatCountG, he.2, ih.2, MAGL.sumBeats]⟩

/-- The `reduce(mul, ...)` fold of a `"*"` node preserves well-formedness
and multiplies beat counts. -/
theorem timesFold_wf : (es : MAGL) → MAGL.valid es = true → (b : Bool) →
    (acc : MLGL) → wfML acc = true →
    wfML (timesFold b acc es) = true ∧
      beatCount (timesFold b acc es) = beatCount acc * MAGL.prodBeats es
  | .nil, _, b, acc, hacc => by simp [timesFold, MAGL.prodBeats, hacc]
  | .cons e rest, h, b, acc, hacc => by
    simp [MAGL.valid] at h
    have he := toML_wf e h.1 b
    have hmul := mulML_wf acc _ hacc he.1
    have ih := timesFold_wf rest h.2 b (mulML acc (e.to_metric_layer b)) hmul.1
    refine ⟨by simpa [timesFold] using ih.1, ?_⟩
    simp [timesFold, ih.2, hmul.2, he.2, MAGL.prodBeats]
    ring
end

/-!
## Expression-level specification

These are the statements the claims instantiate: for any string that parses
to a valid expression, the indispensability array is a permutation of
`0 .. N-1` headed by `N - 1`.
-/

theorem indispensibility_array_from_expression_spec (s : String) (g : MAG)
    (split up : Bool) (hp : MeterArithmeticGroup.parse s = some g)
    (hv : g.valid = true) :
    ∃ arr, indispensibility_array_from_expression s split up = some arr ∧
      arr.Perm (List.range g.beats) ∧ arr.head? = some (g.beats - 1) ∧
      arr.length = g.beats := by
  obtain ⟨hwf, hbc⟩ := toML_wf g hv split
  obtain ⟨arr, harr, hperm, hhead, hlen⟩ :=
    get_indispensibility_array_spec (g.to_metric_layer split) up hwf
  exact ⟨arr, by simp [indispensibility_array_from_expression, hp, harr],
    by rwa [hbc] at hperm, by rwa [hbc] at hhead, by rwa [hbc] at hlen⟩

theorem indispensibility_array_from_expression_normalized_spec (s : String)
    (g : MAG) (split up : Bool) (hp : MeterArithmeticGroup.parse s = some g)
    (hv : g.valid = true) (lN : List ℚ)
    (hsome : indispensibility_array_from_expression_normalized s split up = some lN) :
    lN.head? = some 1 := by
  obtain ⟨hwf, _⟩ := toML_wf g hv split
  apply get_indispensibility_array_normalized_head (g.to_metric_layer split) up hwf
  rw [indispensibility_array_from_expression_normalized, hp] at hsome
  simpa using hsome

theorem typeCheckGroups_isSome (objs : List PyObj) :
    (typeCheckGroups objs).isSome = true ↔ ∀ o ∈ objs, o ≠ PyObj.other := by
  induction objs with
  | nil => simp [typeCheckGroups]
  | cons o rest ih =>
    cases o with
    | int n =>
      simp only [typeCheckGroups, pyObjToGroup]
      constructor
      · intro h q hq
        rcases List.mem_cons.mp hq with rfl | hq
        · simp
        · refine (ih.mp ?_) q hq
          cases hr : typeCheckGroups rest with
          | none => rw [hr] at h; simp at h
          | some gs => simp [hr]
      · intro h
        have := ih.mpr (fun q hq => h q (by simp [hq]))
        cases hr : typeCheckGroups rest with
        | none => rw [hr] at this; simp at this
        | some gs => simp [hr]
    | layer gs =>
      simp only [typeCheckGroups, pyObjToGroup]
      constructor
      · intro h q hq
        rcases List.mem_cons.mp hq with rfl | hq
        · simp
        · refine (ih.mp ?_) q hq
          cases hr : typeCheckGroups rest with
          | none => rw [hr] at h; simp at h
          | some gs2 => simp [hr]
      · intro h
        have := ih.mpr (fun q hq => h q (by simp [hq]))
        cases hr : typeCheckGroups rest with
        | none => rw [hr] at this; simp at this
        | some gs2 => simp [hr]
    | other =>
      simp [typeCheckGroups, pyObjToGroup]

/-!
## The claims
-/

/-- Claim C1, confirmed.  For every valid meter arithmetic expression (one
that parses, with positive integer literals and nonempty groups) with total
beat count `N`, the unnormalized result of
`indispensibility_array_from_expression` is a permutation of `0 .. N-1`
(sorting it yields `range N`): every beat position receives a unique rank
with no ties.  This holds for every flag combination, in particular the
defaults. -/
theorem claim1_array_is_permutation (s : String) (g : MAG) (split up : Bool)
    (hp : MeterArithmeticGroup.parse s = some g) (hv : g.valid = true) :
    ∃ arr, indispensibility_array_from_expression s split up = some arr ∧
      arr.Perm (List.range g.beats) := by
  obtain ⟨arr, h1, h2, _, _⟩ :=
    indispensibility_array_from_expression_spec s g split up hp hv
  exact ⟨arr, h1, h2⟩

/-- Witness for C1 at the expression `"2+3"` (beat count 5). -/
theorem claim1_witness :
    ∃ arr, indispensibility_array_from_expression "2+3" false true = some arr ∧
      arr.Perm (List.range
        (MAG.plus (.cons (.num 2) (.cons (.num 3) .nil))).beats) :=
  claim1_array_is_permutation "2+3"
    (MAG.plus (.cons (.num 2) (.cons (.num 3) .nil))) false true
    (by decide) (by decide)

/-- Claim C2, counterexample.  The claim "the first entry is exactly 1.0 when
`normalize=True` is requested" fails for the valid single-beat expression
`"1"`: there the maximum of the unnormalized array `[0]` is 0, the division
by `max(array)` raises `ZeroDivisionError` (embedded as `none`), and no
first entry `1.0` is produced. -/
theorem claim2_counterexample :
    MeterArithmeticGroup.parse "1" = some (MAG.num 1) ∧
      (MAG.num 1).valid = true ∧
      indispensibility_array_from_expression_normalized "1" false true = none :=
  ⟨by decide, by decide, by decide⟩

/-- Claim C2, amended.  For every valid expression the first entry of the
unnormalized array is `N - 1`, the maximum of the array; and whenever the
normalized call returns at all (which it does exactly when `max(array)` is
nonzero, i.e. `N ≥ 2`), its first entry is exactly 1. -/
theorem claim2_amended (s : String) (g : MAG) (split up : Bool)
    (hp : MeterArithmeticGroup.parse s = some g) (hv : g.valid = true) :
    (∃ arr, indispensibility_array_from_expression s split up = some arr ∧
      arr.head? = some (g.beats - 1) ∧ ∀ x ∈ arr, x ≤ g.beats - 1) ∧
    (∀ lN, indispensibility_array_from_expression_normalized s split up = some lN →
      lN.head? = some 1) := by
  obtain ⟨arr, h1, h2, h3, _⟩ :=
    indispensibility_array_from_expression_spec s g split up hp hv
  refine ⟨⟨arr, h1, h3, ?_⟩, ?_⟩
  · intro x hx
    have := (h2.mem_iff).mp hx
    rw [List.mem_range] at this
    omega
  · intro lN hlN
    exact indispensibility_array_from_expression_normalized_spec s g split up
      hp hv lN hlN

/-- Witness for C2 at the expression `"2*3"` (beat count 6). -/
theorem claim2_witness :
    (∃ arr, indispensibility_array_from_expression "2*3" false true = some arr ∧
      arr.head? = some ((MAG.plus (.cons (MAG.times
        (.cons (.num 2) (.cons (.num 3) .nil))) .nil)).beats - 1) ∧
      ∀ x ∈ arr, x ≤ (MAG.plus (.cons (MAG.times
        (.cons (.num 2) (.cons (.num 3) .nil))) .nil)).beats - 1) ∧
    (∀ lN, indispensibility_array_from_expression_normalized "2*3" false true
        = some lN → lN.head? = some 1) :=
  claim2_amended "2*3"
    (MAG.plus (.cons (MAG.times (.cons (.num 2) (.cons (.num 3) .nil))) .nil))
    false true (by decide) (by decide)

/-- Claim C3, counterexample.  With default flags the arrays of `"(2+2)+3"`
and `"2+2+3"` are equal at every beat position, refuting the claim that they
differ somewhere: after depth normalization, flattening the two-element
outer layer `[[A], [B, C]]` of the left-nested form restores exactly the
sibling list `[A, B, C]` of the flat form. -/
theorem claim3_counterexample :
    indispensibility_array_from_expression "(2+2)+3" false true
      = indispensibility_array_from_expression "2+2+3" false true := by decide

/-- Claim C3, amended.  Both `"(2+2)+3"` and `"2+2+3"` produce the array
`[6, 1, 4, 2, 5, 0, 3]`; left-nested parenthesization `(a+b)+c` collapses to
the same output as `a+b+c`.  Grouping depth does change the output for
right-nested parenthesization: `"4+(2+3)"` differs from `"4+2+3"`. -/
theorem claim3_amended :
    indispensibility_array_from_expression "(2+2)+3" false true
        = some [6, 1, 4, 2, 5, 0, 3] ∧
      indispensibility_array_from_expression "2+2+3" false true
        = some [6, 1, 4, 2, 5, 0, 3] ∧
      indispensibility_array_from_expression "4+(2+3)" false true
        ≠ indispensibility_array_from_expression "4+2+3" false true :=
  ⟨by decide, by decide, by decide⟩

/-- Claim C4, counterexample.  `barlow_style_indispensibility_array(2, 2)`
does not return `[3, 1, 2, 0]`. -/
theorem claim4_counterexample :
    barlow_style_indispensibility_array [2, 2] ≠ some [3, 1, 2, 0] := by decide

/-- Claim C4, amended.  `barlow_style_indispensibility_array(2, 2)` returns
`[3, 0, 2, 1]` — the textbook Barlow array for two strata of two (the value
`[3, 1, 2, 0]` claimed by the specification is the *backward*
indispensability array computed internally, before the final rotate and
reverse). -/
theorem claim4_amended :
    barlow_style_indispensibility_array [2, 2] = some [3, 0, 2, 1] := by decide

/-- Claim C5, confirmed.  `barlow_style_indispensibility_array(4)`, a single
stratum of 4 decomposed into 2+2, returns the textbook Barlow array for
simple quadruple meter, `[3, 0, 2, 1]`. -/
theorem claim5_barlow_four :
    barlow_style_indispensibility_array [4] = some [3, 0, 2, 1] := by decide

/-- Claim C6, confirmed.  Each of the malformed expressions `"+2+3"`
(leading operator), `"2++3"` (adjacent operators), `"(2+3"` (unmatched
parenthesis) and `""` (empty input) fails to parse (the embedded
`ParseError`/failed assert), and the error propagates through
`indispensibility_array_from_expression` (with default flags) instead of
being silently recovered. -/
theorem claim6_malformed_inputs_raise :
    (MeterArithmeticGroup.parse "+2+3" = none ∧
      MeterArithmeticGroup.parse "2++3" = none ∧
      MeterArithmeticGroup.parse "(2+3" = none ∧
      MeterArithmeticGroup.parse "" = none) ∧
    (indispensibility_array_from_expression "+2+3" false true = none ∧
      indispensibility_array_from_expression "2++3" false true = none ∧
      indispensibility_array_from_expression "(2+3" false true = none ∧
      indispensibility_array_from_expression "" false true = none) :=
  ⟨⟨by decide, by decide, by decide, by decide⟩,
    ⟨by decide, by decide, by decide, by decide⟩⟩

/-- Claim C7, counterexample.  Constructing a metric layer whose only group
is the integer 0 succeeds: `MetricLayer.__init__` checks only that every
group is an int or a `MetricLayer`, so the claim that construction fails for
an integer group `≤ 0` is false. -/
theorem claim7_counterexample :
    (MetricLayer_init [PyObj.int 0] false).isSome = true := by decide

/-- Claim C7, amended.  Construction from a variadic list of groups succeeds
*iff* every group is an integer (of any sign) or another metric layer, and
fails with the constructor's `AssertionError` (the equivalent of
`InvalidGroupError`) exactly when some group is neither; non-positive
integer groups are not rejected. -/
theorem claim7_amended (objs : List PyObj) (b : Bool) :
    (MetricLayer_init objs b).isSome = true ↔ ∀ o ∈ objs, o ≠ PyObj.other := by
  rw [← typeCheckGroups_isSome]
  rw [MetricLayer_init]
  cases typeCheckGroups objs with
  | none => simp
  | some gs => simp

/-- Claim C8, confirmed.  For every well-formed metric layer (positive
integer groups throughout), `break_up_large_numbers` preserves the total
beat count, and the indispensability arrays computed by the constructor with
and without `break_up_large_numbers` have the same length. -/
theorem claim8_break_up_preserves_beats (gs : MLGL) (up : Bool)
    (h : wfML gs = true) :
    beatCount (break_up_large_numbers gs) = beatCount gs ∧
    ∃ a b, get_indispensibility_array (mkMetricLayer gs true) up = some a ∧
      get_indispensibility_array (mkMetricLayer gs false) up = some b ∧
      a.length = b.length := by
  have heach := wfEach_of_wfML gs h
  have hb := break_up_wf gs heach.1
  have hmkT := mkMetricLayer_wf gs true h
  have hmkF := mkMetricLayer_wf gs false h
  obtain ⟨a, ha1, _, _, ha4⟩ :=
    get_indispensibility_array_spec (mkMetricLayer gs true) up hmkT.1
  obtain ⟨b, hb1, _, _, hb4⟩ :=
    get_indispensibility_array_spec (mkMetricLayer gs false) up hmkF.1
  exact ⟨hb.2.1, a, b, ha1, hb1, by rw [ha4, hb4, hmkT.2, hmkF.2]⟩

/-- Witness for C8 at the layer `MetricLayer(5)` (which breaks up into
2+3). -/
theorem claim8_witness :
    beatCount (break_up_large_numbers (.cons (.int 5) .nil))
        = beatCount (.cons (.int 5) .nil) ∧
      ∃ a b, get_indispensibility_array
          (mkMetricLayer (.cons (.int 5) .nil) true) false = some a ∧
        get_indispensibility_array
          (mkMetricLayer (.cons (.int 5) .nil) false) false = some b ∧
        a.length = b.length :=
  claim8_break_up_preserves_beats (.cons (.int 5) .nil) false (by decide)

/-- Claim C9, confirmed.  For the valid single-beat expression `"1"` the
unnormalized call succeeds and returns `[0]`, but the normalized call
divides by `max(array) = 0` and raises `ZeroDivisionError` (embedded as
`none`) instead of returning a normalized array. -/
theorem claim9_single_beat_normalization_crash :
    MeterArithmeticGroup.parse "1" = some (MAG.num 1) ∧
      indispensibility_array_from_expression "1" false true = some [0] ∧
      indispensibility_array_from_expression_normalized "1" false true = none :=
  ⟨by decide, by decide, by decide⟩
